import Mathlib

/-!
# ez-fuzzy: the fuzzy file-matching engine (`src/fuzzymatcher.cpp`)

A shallow embedding of `FuzzyMatcher` and theorems about it.

Modelling conventions.

* A `QString` is the list of its characters; `QString::toLower` is the
  character-wise lowercasing of the ASCII letters.
* A C++ `int` is an `Int`.  String and container lengths stay far below
  `2^31`, so no operation of the engine wraps around.
* `QFileInfo(path).fileName()` is the part of the path after its last `/`.
* `std::sort` is a parameter `sort` of the model: the C++ standard promises a
  permutation of the input ordered by the comparator and nothing about the
  order of elements the comparator does not separate (`IsStdSort`).
* `QtConcurrent::blockingMap` over the batches lets the batches finish in any
  order; the order in which their results reach the shared accumulator is a
  parameter `sched` of the model (`IsSchedule`).
* The `QHash` query cache is an association list with distinct keys, newest
  key first.
-/

namespace FuzzyMatcher

/-! ## Strings -/

/-- A `QString`, as the list of its characters. -/
abbrev QString := List Char

/-- The method `QString::toLower`. -/
def toLower (s : QString) : QString := s.map Char.toLower

/-- The method `QString::startsWith`. -/
def startsWith (s p : QString) : Bool := p.isPrefixOf s

/-- The method `QString::contains(const QString &)`: `p` occurs in `s` as a contiguous block. -/
def contains : QString → QString → Bool
  | [], p => p.isPrefixOf []
  | c :: s, p => p.isPrefixOf (c :: s) || contains s p

/-- Scan for `c`, the head of the list having index `pos`; `-1` when absent. -/
def indexOfAux (c : Char) : QString → Int → Int
  | [], _ => -1
  | d :: s, pos => if d = c then pos else indexOfAux c s (pos + 1)

/-- The method `QString::indexOf(QChar c, int from)` for `from ≥ 0`: the index of the first
occurrence of `c` at or after `from`, or `-1`. -/
def indexOf (s : QString) (c : Char) (frm : Int) : Int :=
  indexOfAux c (s.drop frm.toNat) frm

/-- The scan of `QFileInfo::fileName`, with the segment collected since the last `/`. -/
def fileNameAux : QString → QString → QString
  | [], acc => acc.reverse
  | c :: s, acc => if c = '/' then fileNameAux s [] else fileNameAux s (c :: acc)

/-- The value of `QFileInfo(path).fileName()`: the last segment of the path. -/
def fileName (path : QString) : QString := fileNameAux path []

/-! ## Entries -/

/-- The record `struct FileEntry`. -/
structure FileEntry where
  fullPath : QString
  fileName : QString
  lowerName : QString
  deriving DecidableEq, Repr

/-- A default-constructed `FileEntry`: three empty strings. -/
def FileEntry.empty : FileEntry := ⟨[], [], []⟩

/-- The entry that the body of the `setCollection` lambda writes for `path`. -/
def mkEntry (path : QString) : FileEntry :=
  ⟨path, fileName path, toLower (fileName path)⟩

/-! ## levenshteinDistance -/

/-- The inner `j` loop of `levenshteinDistance`: given the rest of `s2` from
index `j`, the previous row from index `j`, and `curr[j]`, the values
`curr[j+1], curr[j+2], ...`. -/
def levRow (c : Char) : QString → List Int → Int → List Int
  | d :: s2, pj :: pj1 :: prev, cj =>
    let cost : Int := if c = d then 0 else 1
    let v := min (min (cj + 1) (pj1 + 1)) (pj + cost)
    v :: levRow c s2 (pj1 :: prev) v
  | _, _, _ => []

/-- The outer `i` loop of `levenshteinDistance`: the rest of `s1` from index
`i`, and the row `prev`. -/
def levLoop (threshold : Int) (s2 : QString) : QString → Int → List Int → Int
  | [], _, prev => prev.getD s2.length 0
  | c :: s1, i, prev =>
    let tail := levRow c s2 prev (i + 1)
    if tail.all (fun v => !decide (v < threshold)) then threshold
    else levLoop threshold s2 s1 (i + 1) ((i + 1) :: tail)

/-- The method `FuzzyMatcher::levenshteinDistance`. -/
def levenshteinDistance (s1 s2 : QString) : Int :=
  let len1 : Int := s1.length
  let len2 : Int := s2.length
  if len1 = 0 then len2
  else if len2 = 0 then len1
  else if |len1 - len2| > len1 then len2
  else levLoop len1 s2 s1 0 ((List.range (s2.length + 1)).map Int.ofNat)

/-! ## calculateScore -/

/-- The character class `[a-zA-Z0-9]`. -/
def isAlnum (c : Char) : Bool :=
  ('a' ≤ c && c ≤ 'z') || ('A' ≤ c && c ≤ 'Z') || ('0' ≤ c && c ≤ '9')

/-- The call `QString::split(" ", Qt::SkipEmptyParts)`, scanning with the current part
collected in reverse. -/
def splitAux : QString → QString → List QString
  | [], acc => if acc.isEmpty then [] else [acc.reverse]
  | c :: s, acc =>
    if c = ' ' then
      (if acc.isEmpty then splitAux s [] else acc.reverse :: splitAux s [])
    else splitAux s (c :: acc)

/-- The words of the initialism stage: every character outside `[a-zA-Z0-9]`
replaced by a blank, then split at blanks, empty parts skipped. -/
def words (name : QString) : List QString :=
  splitAux (name.map (fun c => if isAlnum c then c else ' ')) []

/-- The loop of the initialism stage over `i < queryLower.length() && i < words.size()`. -/
def initialsMatch : QString → List QString → Bool
  | c :: q, w :: ws =>
    match w with
    | [] => false
    | d :: _ => if d ≠ c then false else initialsMatch q ws
  | _, _ => true

/-- The loop of the subsequence stage: `none` when a character is missing,
otherwise the final `lastIndex`. -/
def subseqLoop (name : QString) : QString → Int → Option Int
  | [], lastIndex => some lastIndex
  | c :: q, lastIndex =>
    let index := indexOf name c (lastIndex + 1)
    if index = -1 then none else subseqLoop name q index

/-- The method `FuzzyMatcher::calculateScore`. -/
def calculateScore (queryLower : QString) (entry : FileEntry) : Int :=
  if queryLower.isEmpty then 1
  else if entry.lowerName = queryLower then 1000
  else if startsWith entry.lowerName queryLower then 800
  else if contains entry.lowerName queryLower then 600
  else if (queryLower.length ≤ 5 ∧ queryLower.length ≥ 2) ∧
      ((words entry.lowerName).length ≥ queryLower.length ∧
        initialsMatch queryLower (words entry.lowerName) = true) then 550
  else if (queryLower.length > 2 ∨ entry.lowerName.length < 10) ∧
      levenshteinDistance queryLower entry.lowerName ≤ (queryLower.length : Int) * 2 then
    max 1 (500 - levenshteinDistance queryLower entry.lowerName * 10)
  else
    match subseqLoop entry.lowerName queryLower (-1) with
    | some lastIndex =>
      100 - min 90 (lastIndex + 1 - indexOf entry.lowerName (queryLower.headD ' ') 0)
    | none => 0

/-! ## The engine -/

/-- A `QPair<QString, int>`: a path and its score. -/
abbrev ScoredMatch := QString × Int

/-- The `QHash<QString, QStringList>` query cache. -/
abbrev QueryCache := List (QString × List QString)

/-- The value `QHash::value(key)` when `QHash::contains(key)`, else `none`. -/
def cacheValue (cache : QueryCache) (key : QString) : Option (List QString) :=
  match cache with
  | [] => none
  | (k, v) :: rest => if k = key then some v else cacheValue rest key

/-- The assignment `cache[key] = value`: the key is bound to the value, any older binding replaced. -/
def cacheInsert (cache : QueryCache) (key : QString) (value : List QString) : QueryCache :=
  (key, value) :: cache.filter (fun kv => decide (kv.1 ≠ key))

/-- The state of a `FuzzyMatcher`: the Index and the query cache. -/
structure Engine where
  m_entries : List FileEntry
  m_queryCache : QueryCache
  deriving DecidableEq, Repr

/-- The engine after the constructor `FuzzyMatcher::FuzzyMatcher()`. -/
def fresh : Engine := ⟨[], []⟩

/-- The effect of `QtConcurrent::blockingMap` in `setCollection`: for each
path the slot `collection.indexOf(path)` of `entries` is written. -/
def fillEntries (collection : List QString) (entries : List FileEntry) : List FileEntry :=
  collection.foldl (fun es path => es.set (collection.indexOf path) (mkEntry path)) entries

/-- The method `FuzzyMatcher::setCollection`. -/
def setCollection (_self : Engine) (collection : List QString) : Engine :=
  if collection.isEmpty then ⟨[], []⟩
  else ⟨fillEntries collection (List.replicate collection.length FileEntry.empty), []⟩

/-- The call `QList::mid(0, length)`: a negative length means everything. -/
def mid0 (l : List QString) (length : Int) : List QString :=
  if length < 0 then l else l.take length.toNat

/-- The loop of `search` that cuts `m_entries` into batches of
`batchSize = 1000`: `i` is the loop variable, the first argument bounds the
number of iterations. -/
def mkBatches (entries : List FileEntry) : Nat → Nat → List (List FileEntry)
  | 0, _ => []
  | fuel + 1, i =>
    if i < entries.length then
      ((entries.drop i).take (min (i + 1000) entries.length - i)) ::
        mkBatches entries fuel (i + 1000)
    else []

/-- The method `FuzzyMatcher::scoreFileBatch`: the `localResults` of one batch. -/
def scoreFileBatch (queryLower : QString) (batch : List FileEntry) : List ScoredMatch :=
  batch.filterMap (fun entry =>
    if calculateScore queryLower entry > 0 then
      some (entry.fullPath, calculateScore queryLower entry)
    else none)

/-- The method `FuzzyMatcher::search`: the returned list and the engine afterwards (the
cache is `mutable`).  `sort` is `std::sort` with the comparator
`a.second > b.second`; `sched` puts the per-batch results in the order in
which the batches append them to `scoredStrings`. -/
def search (sort : List ScoredMatch → List ScoredMatch)
    (sched : List (List ScoredMatch) → List (List ScoredMatch))
    (self : Engine) (query : QString) (maxResults : Int) : List QString × Engine :=
  let queryLower := toLower query
  if queryLower.isEmpty then
    ((self.m_entries.take (min maxResults self.m_entries.length).toNat).map FileEntry.fullPath,
      self)
  else
    match cacheValue self.m_queryCache queryLower with
    | some cachedResults => (mid0 cachedResults maxResults, self)
    | none =>
      if self.m_entries.isEmpty then ([], self)
      else
        let batches := mkBatches self.m_entries self.m_entries.length 0
        let scoredStrings := (sched (batches.map (scoreFileBatch queryLower))).flatten
        let sorted := sort scoredStrings
        let count := min maxResults sorted.length
        let results := (sorted.take count.toNat).map Prod.fst
        if ¬ results.isEmpty ∧ self.m_queryCache.length < 1000 then
          (results, ⟨self.m_entries, cacheInsert self.m_queryCache queryLower results⟩)
        else (results, self)

/-! ## The contracts of the library parameters -/

/-- What the C++ standard promises of `std::sort` with the comparator
`a.second > b.second`: the output is a permutation of the input, and no
element is followed by one that the comparator puts before it. -/
def IsStdSort (sort : List ScoredMatch → List ScoredMatch) : Prop :=
  ∀ l, (sort l).Perm l ∧ (sort l).Pairwise (fun a b => ¬ b.2 > a.2)

/-- The batches all finish, in some order. -/
def IsSchedule (sched : List (List ScoredMatch) → List (List ScoredMatch)) : Prop :=
  ∀ l, (sched l).Perm l

/-- A `std::sort` that keeps elements of equal score in their input order. -/
def stableSort (l : List ScoredMatch) : List ScoredMatch :=
  l.insertionSort (fun a b => a.2 ≥ b.2)

/-- A `std::sort` that reverses the input order of elements of equal score. -/
def reversingSort (l : List ScoredMatch) : List ScoredMatch :=
  l.reverse.insertionSort (fun a b => a.2 ≥ b.2)

/-- The batches append their results in index order. -/
def inOrder (l : List (List ScoredMatch)) : List (List ScoredMatch) := l

/-- The batches append their results in reverse index order. -/
def lastFirst (l : List (List ScoredMatch)) : List (List ScoredMatch) := l.reverse

/-! ## Reachable states -/

/-- The states reachable from a fresh engine by `setCollection` and `search`
calls, every search with batches finishing in some order. -/
inductive Reachable (sort : List ScoredMatch → List ScoredMatch) : Engine → Prop where
  | fresh : Reachable sort fresh
  | setCollection {self : Engine} (collection : List QString) :
      Reachable sort self → Reachable sort (setCollection self collection)
  | search {self : Engine} (sched : List (List ScoredMatch) → List (List ScoredMatch))
      (query : QString) (maxResults : Int) :
      IsSchedule sched → Reachable sort self →
      Reachable sort (search sort sched self query maxResults).2

/-! ## Notions used in the statements -/

/-- The edit-distance stage of `calculateScore` is attempted and accepts. -/
def editStageAccepts (queryLower name : QString) : Prop :=
  (queryLower.length > 2 ∨ name.length < 10) ∧
    levenshteinDistance queryLower name ≤ (queryLower.length : Int) * 2

instance (queryLower name : QString) : Decidable (editStageAccepts queryLower name) := by
  unfold editStageAccepts
  infer_instance

/-- The sorted `scoredStrings` of a cache-miss search. -/
def rankedMatches (sort : List ScoredMatch → List ScoredMatch)
    (sched : List (List ScoredMatch) → List (List ScoredMatch))
    (entries : List FileEntry) (queryLower : QString) : List ScoredMatch :=
  sort (sched ((mkBatches entries entries.length 0).map (scoreFileBatch queryLower))).flatten

/-- The list a cache-miss search returns. -/
def missResults (sort : List ScoredMatch → List ScoredMatch)
    (sched : List (List ScoredMatch) → List (List ScoredMatch))
    (entries : List FileEntry) (queryLower : QString) (maxResults : Int) : List QString :=
  ((rankedMatches sort sched entries queryLower).take
    (min maxResults (rankedMatches sort sched entries queryLower).length).toNat).map Prod.fst

/-- Every path cached for a key is the path of an Index entry that scores
above 0 for that key. -/
def CacheValid (self : Engine) : Prop :=
  ∀ kv ∈ self.m_queryCache, ∀ p ∈ kv.2,
    ∃ e ∈ self.m_entries, e.fullPath = p ∧ calculateScore kv.1 e > 0

/-! ## Example inputs -/

/-- The collection of the end-to-end example. -/
def demoCollection : List QString :=
  ["/a/readme.txt".toList, "/a/test.cpp".toList, "/a/testing.cpp".toList, "/a/other.md".toList]


/-- A collection of 1001 distinct paths, two batches: `/a/z`, then the 999
paths `/jj`, `/jjj`, ... (up to 1000 letters), then `/b/z`. -/
def bigCollection : List QString :=
  "/a/z".toList ::
    ((List.range 999).map (fun i => '/' :: List.replicate (i + 2) 'j') ++ ["/b/z".toList])

/-- The 1000 queries `j`, `jj`, ..., up to 1000 letters. -/
def fillQueries : List QString :=
  (List.range 1000).map (fun i => List.replicate (i + 1) 'j')

/-- The engine after a sequence of searches for one result each, batches in index order. -/
def searchAll (sort : List ScoredMatch → List ScoredMatch) (self : Engine)
    (queries : List QString) : Engine :=
  queries.foldl (fun st q => (search sort inOrder st q 1).2) self

/-- The ranking the specification describes for a cache miss: the entries
that score above 0, by descending score, equal scores in Index order, cut to
the first `k`. -/
def specRanking (entries : List FileEntry) (queryLower : QString) (k : Nat) : List QString :=
  (((((entries.filter (fun e => decide (calculateScore queryLower e > 0))).map
    (fun e => (e.fullPath, calculateScore queryLower e))).insertionSort
      (fun a b => a.2 ≥ b.2)).take k).map Prod.fst)

/-- The Index that `setCollection` builds from `bigCollection`. -/
def bigEntries : List FileEntry :=
  mkEntry "/a/z".toList ::
    (((List.range 999).map (fun i => '/' :: List.replicate (i + 2) 'j')).map mkEntry ++
      [mkEntry "/b/z".toList])

/-- The engine after `SetCollection(bigCollection)` and the 1000 searches of
`fillQueries`: the cache is full. -/
def fullState : Engine :=
  searchAll stableSort (setCollection fresh bigCollection) fillQueries

/-! ## The standard distance and the stages -/

/-- The standard Levenshtein edit distance with unit-cost insertion, deletion
and substitution: the library's `levenshtein` at its default cost. -/
def standardLevenshtein (a b : QString) : Nat :=
  levenshtein Levenshtein.defaultCost a b

/-- The row of the distance table for the prefix `p` of the first string:
the standard distances from `p` to `done`, to `done` with one more character
of `rest`, and so on up to `done ++ rest`. -/
def distanceRow (p : QString) : QString → QString → List Int
  | done, [] => [(standardLevenshtein p done : Int)]
  | done, d :: rest => (standardLevenshtein p done : Int) :: distanceRow p (done ++ [d]) rest

/-- The stages of `calculateScore`, in the order in which they are tried. -/
inductive Stage where
  | emptyQuery
  | exactMatch
  | prefixMatch
  | substringMatch
  | initialismMatch
  | editDistanceMatch
  | subsequenceMatch
  | noMatch
  deriving DecidableEq, Repr

/-- The stage of `calculateScore` that returns the score of the entry: the
conditions of `calculateScore`, in its order. -/
def stageOf (queryLower : QString) (entry : FileEntry) : Stage :=
  if queryLower.isEmpty then Stage.emptyQuery
  else if entry.lowerName = queryLower then Stage.exactMatch
  else if startsWith entry.lowerName queryLower then Stage.prefixMatch
  else if contains entry.lowerName queryLower then Stage.substringMatch
  else if (queryLower.length ≤ 5 ∧ queryLower.length ≥ 2) ∧
      ((words entry.lowerName).length ≥ queryLower.length ∧
        initialsMatch queryLower (words entry.lowerName) = true) then Stage.initialismMatch
  else if (queryLower.length > 2 ∨ entry.lowerName.length < 10) ∧
      levenshteinDistance queryLower entry.lowerName ≤ (queryLower.length : Int) * 2 then
    Stage.editDistanceMatch
  else
    match subseqLoop entry.lowerName queryLower (-1) with
    | some _ => Stage.subsequenceMatch
    | none => Stage.noMatch

/-! ## Notions of the later stages -/

/-- The words of a name as the specification describes them: the non-empty
maximal runs of ASCII letters and digits, in order. -/
def alnumRuns (name : QString) : List QString :=
  (name.splitOnP (fun c => !isAlnum c)).filter (fun w => !w.isEmpty)

/-- The condition under which the initialism stage of `calculateScore` returns 550. -/
def initialismApplies (queryLower name : QString) : Prop :=
  (queryLower.length ≤ 5 ∧ queryLower.length ≥ 2) ∧
    ((words name).length ≥ queryLower.length ∧ initialsMatch queryLower (words name) = true)

instance (queryLower name : QString) : Decidable (initialismApplies queryLower name) := by
  unfold initialismApplies
  infer_instance

/-- The last stage of `calculateScore`: the subsequence search and its score. -/
def subsequenceStage (queryLower name : QString) : Int :=
  match subseqLoop name queryLower (-1) with
  | some lastIndex => 100 - min 90 (lastIndex + 1 - indexOf name (queryLower.headD ' ') 0)
  | none => 0

/-- The indices at which the loop of the subsequence stage matches the
characters of the query, `none` when a character is missing. -/
def matchPositions (name : QString) : QString → Int → Option (List Int)
  | [], _ => some []
  | c :: q, lastIndex =>
    let index := indexOf name c (lastIndex + 1)
    if index = -1 then none else (matchPositions name q index).map (fun ps => index :: ps)

/-- The outer loop of `levenshteinDistance` with the early-abandon test kept
on the last row only. -/
def levLoopLastRow (threshold : Int) (s2 : QString) : QString → Int → List Int → Int
  | [], _, prev => prev.getD s2.length 0
  | c :: s1, i, prev =>
    let tail := levRow c s2 prev (i + 1)
    if s1.isEmpty = true ∧ tail.all (fun v => !decide (v < threshold)) = true then threshold
    else levLoopLastRow threshold s2 s1 (i + 1) ((i + 1) :: tail)

/-- The function `levenshteinDistance` with the early-abandon test removed
from all rows but the last. -/
def levenshteinDistanceLastRow (s1 s2 : QString) : Int :=
  let len1 : Int := s1.length
  let len2 : Int := s2.length
  if len1 = 0 then len2
  else if len2 = 0 then len1
  else if |len1 - len2| > len1 then len2
  else levLoopLastRow len1 s2 s1 0 ((List.range (s2.length + 1)).map Int.ofNat)

/-- The successive rows `curr` that the loops of `levenshteinDistance` compute
when no row abandons: the rest of `s1` from index `i`, and the row `prev`. -/
def levRowsFrom (s2 : QString) : QString → Int → List Int → List (List Int)
  | [], _, _ => []
  | c :: s1, i, prev =>
    ((i + 1) :: levRow c s2 prev (i + 1)) ::
      levRowsFrom s2 s1 (i + 1) ((i + 1) :: levRow c s2 prev (i + 1))

/-- The rows of the distance table of `s1` and `s2`, row `i` for `s1[i]`. -/
def levRows (s1 s2 : QString) : List (List Int) :=
  levRowsFrom s2 s1 0 ((List.range (s2.length + 1)).map Int.ofNat)

/-- The last segment of a path: what follows its last `/`. -/
def lastSegment (path : QString) : QString :=
  (path.reverse.takeWhile (fun c => decide (c ≠ '/'))).reverse

/-! ## Strings: lemmas -/

theorem toLower_eq_nil {q : QString} : toLower q = [] ↔ q = [] := by
  simp [toLower]

theorem startsWith_sublist {s p : QString} (h : startsWith s p = true) : p.Sublist s := by
  unfold startsWith at h
  exact (List.isPrefixOf_iff_prefix.1 h).sublist

theorem infix_of_contains {s p : QString} (h : contains s p = true) : p <:+: s := by
  induction s with
  | nil =>
    simp only [contains] at h
    exact (List.isPrefixOf_iff_prefix.1 h).isInfix
  | cons c s ih =>
    simp only [contains, Bool.or_eq_true] at h
    rcases h with h | h
    · exact (List.isPrefixOf_iff_prefix.1 h).isInfix
    · exact (ih h).trans (List.suffix_cons c s).isInfix

theorem contains_sublist {s p : QString} (h : contains s p = true) : p.Sublist s :=
  (infix_of_contains h).sublist

theorem indexOfAux_eq_neg_one {c : Char} {s : QString} {pos : Int} (hpos : 0 ≤ pos) :
    indexOfAux c s pos = -1 ↔ c ∉ s := by
  induction s generalizing pos with
  | nil => simp [indexOfAux]
  | cons d s ih =>
    simp only [indexOfAux]
    split
    · rename_i h
      subst h
      simp
      omega
    · rename_i h
      rw [ih (by omega)]
      simp [Ne.symm h]

theorem indexOfAux_found {c : Char} {s : QString} (pos : Int) (h : c ∈ s) :
    ∃ pre post, s = pre ++ c :: post ∧ c ∉ pre ∧ indexOfAux c s pos = pos + pre.length := by
  induction s generalizing pos with
  | nil => simp at h
  | cons d s ih =>
    simp only [indexOfAux]
    split
    · rename_i hd
      subst hd
      exact ⟨[], s, rfl, by simp, by simp⟩
    · rename_i hd
      have hs : c ∈ s := by
        rcases List.mem_cons.1 h with h | h
        · exact absurd h.symm hd
        · exact h
      obtain ⟨pre, post, h1, h2, h3⟩ := ih (pos + 1) hs
      refine ⟨d :: pre, post, by simp [h1], ?_, ?_⟩
      · simp [h2, Ne.symm hd]
      · rw [h3]; simp; omega

theorem sublist_cons_skip {c : Char} {q pre post : QString} (hpre : c ∉ pre) :
    (c :: q).Sublist (pre ++ c :: post) ↔ q.Sublist post := by
  induction pre with
  | nil => simp
  | cons d pre ih =>
    have hd : c ≠ d := fun h => hpre (by simp [h])
    have hp : c ∉ pre := fun h => hpre (by simp [h])
    rw [List.cons_append, List.cons_sublist_cons']
    constructor
    · rintro (h | ⟨h, _⟩)
      · exact (ih hp).1 h
      · exact absurd h hd
    · intro h
      exact Or.inl ((ih hp).2 h)

/-- The subsequence loop succeeds exactly when the rest of the query is a
subsequence of the name after `lastIndex`; its result is a valid index. -/
theorem subseqLoop_spec (name : QString) (q : QString) (last : Int) (hlast : -1 ≤ last) :
    (q.Sublist (name.drop (last + 1).toNat) →
        ∃ li, subseqLoop name q last = some li ∧ last ≤ li ∧ li < max (name.length : Int) (last + 1)) ∧
    (¬ q.Sublist (name.drop (last + 1).toNat) → subseqLoop name q last = none) := by
  induction q generalizing last with
  | nil =>
    refine ⟨fun _ => ⟨last, rfl, le_refl _, ?_⟩, fun h => absurd (List.nil_sublist _) h⟩
    exact lt_of_lt_of_le (by omega) (le_max_right _ _)
  | cons c q ih =>
    simp only [subseqLoop, indexOf]
    by_cases hc : c ∈ name.drop (last + 1).toNat
    · obtain ⟨pre, post, h1, h2, h3⟩ := indexOfAux_found (last + 1) hc
      have hne : ¬ (indexOfAux c (name.drop (last + 1).toNat) (last + 1) = -1) := by
        rw [h3]; omega
      rw [if_neg hne, h3]
      have hdrop : name.drop (last + 1 + (pre.length : Int) + 1).toNat = post := by
        have e : (last + 1 + (pre.length : Int) + 1).toNat = (last + 1).toNat + (pre.length + 1) := by
          omega
        rw [e, ← List.drop_drop, h1]
        simp
      have hlen : (last + 1).toNat + pre.length + 1 + post.length = name.length := by
        have := congrArg List.length h1
        simp at this
        omega
      have key := ih (last + 1 + pre.length) (by omega)
      rw [hdrop] at key
      rw [h1, sublist_cons_skip h2]
      constructor
      · intro hs
        obtain ⟨li, e1, e2, e3⟩ := key.1 hs
        refine ⟨li, e1, by omega, ?_⟩
        rcases lt_max_iff.1 e3 with e3 | e3
        · exact lt_max_iff.2 (Or.inl e3)
        · exact lt_max_iff.2 (Or.inl (by omega))
      · intro hs
        exact key.2 hs
    · have hneg : indexOfAux c (name.drop (last + 1).toNat) (last + 1) = -1 :=
        (indexOfAux_eq_neg_one (by omega)).2 hc
      rw [if_pos hneg]
      refine ⟨fun hs => absurd (hs.subset (List.mem_cons_self _ _)) hc, fun _ => rfl⟩

/-! ## The stages of `calculateScore`: lemmas -/

theorem splitAux_flatten (s acc : QString) :
    (splitAux s acc).flatten = acc.reverse ++ s.filter (fun c => decide (c ≠ ' ')) := by
  induction s generalizing acc with
  | nil =>
    cases acc <;> simp [splitAux]
  | cons c s ih =>
    simp only [splitAux]
    by_cases hc : c = ' '
    · subst hc
      cases acc <;> simp [ih]
    · simp [hc, ih]

theorem words_flatten_sublist (name : QString) : (words name).flatten.Sublist name := by
  unfold words
  rw [splitAux_flatten, List.reverse_nil, List.nil_append, List.filter_map]
  have h : ∀ c ∈ name.filter ((fun c => decide (c ≠ ' ')) ∘ fun c => if isAlnum c = true then c else ' '),
      (fun c => if isAlnum c = true then c else ' ') c = id c := by
    intro c hc
    have := (List.mem_filter.1 hc).2
    by_cases ha : isAlnum c = true
    · simp [ha]
    · simp [ha] at this
  rw [List.map_congr_left h, List.map_id]
  exact List.filter_sublist _

theorem initialsMatch_sublist {q : QString} {ws : List QString}
    (hlen : q.length ≤ ws.length) (h : initialsMatch q ws = true) : q.Sublist ws.flatten := by
  induction q generalizing ws with
  | nil => exact List.nil_sublist _
  | cons c q ih =>
    cases ws with
    | nil => simp at hlen
    | cons w ws =>
      cases w with
      | nil => simp [initialsMatch] at h
      | cons d w =>
        simp only [initialsMatch] at h
        by_cases hd : d = c
        · subst hd
          simp only [ne_eq, not_true_eq_false, if_false] at h
          have hq := ih (by simpa using hlen) h
          simp only [List.flatten_cons, List.cons_append]
          exact List.Sublist.cons₂ _ (List.sublist_append_of_sublist_right hq)
        · simp [hd] at h

theorem subseqLoop_isSome_iff (name q : QString) :
    (∃ li, subseqLoop name q (-1) = some li) ↔ q.Sublist name := by
  have h := subseqLoop_spec name q (-1) (le_refl _)
  simp only [Int.reduceNeg, neg_add_cancel, Int.toNat_zero, List.drop_zero] at h
  constructor
  · rintro ⟨li, hli⟩
    by_contra hn
    rw [h.2 hn] at hli
    cases hli
  · intro hs
    obtain ⟨li, e, _⟩ := h.1 hs
    exact ⟨li, e⟩

theorem indexOf_zero_bounds {name : QString} {c : Char} (h : c ∈ name) :
    0 ≤ indexOf name c 0 ∧ indexOf name c 0 < name.length := by
  unfold indexOf
  obtain ⟨pre, post, h1, _, h3⟩ := indexOfAux_found 0 h
  simp only [Int.toNat_zero, List.drop_zero]
  rw [h3]
  have := congrArg List.length h1
  simp at this
  omega

/-- The score is 0 exactly when the query is not a subsequence of the name and
the edit-distance stage does not accept it. -/
theorem calculateScore_eq_zero_iff (q : QString) (e : FileEntry) (hq : q ≠ []) :
    calculateScore q e = 0 ↔ ¬ q.Sublist e.lowerName ∧ ¬ editStageAccepts q e.lowerName := by
  unfold calculateScore editStageAccepts
  have hq' : q.isEmpty = false := by cases q <;> simp_all
  simp only [hq', Bool.false_eq_true, if_false]
  split
  · rename_i h
    simp [h]
  split
  · rename_i h
    simp [startsWith_sublist h]
  split
  · rename_i h
    simp [contains_sublist h]
  split
  · rename_i h
    have := (initialsMatch_sublist h.2.1 h.2.2).trans (words_flatten_sublist e.lowerName)
    simp [this]
  split
  · rename_i h
    have h1 : max 1 (500 - levenshteinDistance q e.lowerName * 10) ≠ 0 := by
      have := le_max_left 1 (500 - levenshteinDistance q e.lowerName * 10)
      omega
    exact ⟨fun h0 => absurd h0 h1, fun h2 => absurd h h2.2⟩
  · rename_i h
    split
    · rename_i li hli
      have hs : q.Sublist e.lowerName := (subseqLoop_isSome_iff _ _).1 ⟨li, hli⟩
      have : (100 : Int) - min 90 (li + 1 - indexOf e.lowerName (q.headD ' ') 0) ≠ 0 := by
        have := min_le_left (90 : Int) (li + 1 - indexOf e.lowerName (q.headD ' ') 0)
        omega
      exact ⟨fun h0 => absurd h0 this, fun h2 => absurd hs h2.1⟩
    · rename_i hli
      have hs : ¬ q.Sublist e.lowerName := by
        intro hs
        obtain ⟨li, e1⟩ := (subseqLoop_isSome_iff _ _).2 hs
        rw [hli] at e1
        cases e1
      simp only [true_iff]
      exact ⟨hs, h⟩

/-! ## Bounds on the distance and the score -/

theorem levRow_nonneg (c : Char) (s2 : QString) (prev : List Int) (cj : Int)
    (hprev : ∀ v ∈ prev, 0 ≤ v) (hcj : 0 ≤ cj) : ∀ v ∈ levRow c s2 prev cj, 0 ≤ v := by
  induction s2 generalizing prev cj with
  | nil => simp [levRow]
  | cons d s2 ih =>
    match prev with
    | [] => simp [levRow]
    | [_] => simp [levRow]
    | pj :: pj1 :: prev =>
      have h0 : 0 ≤ pj := hprev pj (by simp)
      have h1 : 0 ≤ pj1 := hprev pj1 (by simp)
      have hv : 0 ≤ min (min (cj + 1) (pj1 + 1)) (pj + if c = d then 0 else 1) := by
        have : (0 : Int) ≤ if c = d then 0 else 1 := by split <;> omega
        exact le_min (le_min (by omega) (by omega)) (by omega)
      intro v hmem
      simp only [levRow, List.mem_cons] at hmem
      rcases hmem with rfl | hmem
      · exact hv
      · exact ih (pj1 :: prev) _ (fun w hw => hprev w (List.mem_cons_of_mem _ hw)) hv v hmem

theorem levLoop_nonneg (threshold : Int) (s2 s1 : QString) (i : Int) (prev : List Int)
    (hth : 0 ≤ threshold) (hi : 0 ≤ i) (hprev : ∀ v ∈ prev, 0 ≤ v) :
    0 ≤ levLoop threshold s2 s1 i prev := by
  induction s1 generalizing i prev with
  | nil =>
    simp only [levLoop, List.getD_eq_getElem?_getD]
    cases h : prev[s2.length]? with
    | none => simp
    | some v =>
      simp only [Option.getD_some]
      exact hprev v (List.getElem?_mem h)
  | cons c s1 ih =>
    simp only [levLoop]
    split
    · exact hth
    · apply ih _ _ (by omega)
      intro v hv
      rcases List.mem_cons.1 hv with rfl | hv
      · omega
      · exact levRow_nonneg c s2 prev (i + 1) hprev (by omega) v hv

theorem levenshteinDistance_nonneg (s1 s2 : QString) : 0 ≤ levenshteinDistance s1 s2 := by
  unfold levenshteinDistance
  simp only
  split
  · omega
  split
  · omega
  split
  · omega
  · apply levLoop_nonneg _ _ _ _ _ (by omega) (le_refl _)
    intro v hv
    simp only [List.mem_map, List.mem_range] at hv
    obtain ⟨n, _, rfl⟩ := hv
    exact Int.ofNat_nonneg n

theorem subseqLoop_first_le {name q : QString} {c : Char} {li : Int}
    (h : subseqLoop name (c :: q) (-1) = some li) :
    0 ≤ indexOf name c 0 ∧ indexOf name c 0 ≤ li := by
  simp only [subseqLoop, Int.reduceNeg, neg_add_cancel] at h
  split at h
  · cases h
  · rename_i hne
    have hc : c ∈ name := by
      by_contra hc
      exact hne ((indexOfAux_eq_neg_one (le_refl _)).2 (by simpa using hc))
    have hb := indexOf_zero_bounds hc
    have hs := subseqLoop_spec name q (indexOf name c 0) (by omega)
    by_cases hsub : q.Sublist (name.drop (indexOf name c 0 + 1).toNat)
    · obtain ⟨li', e1, e2, _⟩ := hs.1 hsub
      rw [h] at e1
      cases e1
      exact ⟨hb.1, e2⟩
    · rw [hs.2 hsub] at h
      cases h

theorem calculateScore_bounds (q : QString) (e : FileEntry) :
    0 ≤ calculateScore q e ∧ calculateScore q e ≤ 1000 := by
  cases q with
  | nil => simp [calculateScore]
  | cons c q =>
    unfold calculateScore
    split
    · omega
    split
    · omega
    split
    · omega
    split
    · omega
    split
    · omega
    split
    · have h1 := le_max_left 1 (500 - levenshteinDistance (c :: q) e.lowerName * 10)
      have h2 := levenshteinDistance_nonneg (c :: q) e.lowerName
      refine ⟨by omega, max_le (by omega) (by omega)⟩
    · split
      · rename_i li hli
        have := subseqLoop_first_le hli
        simp only [List.headD_cons]
        have h1 := min_le_left (90 : Int) (li + 1 - indexOf e.lowerName c 0)
        have h2 : (0 : Int) ≤ min 90 (li + 1 - indexOf e.lowerName c 0) :=
          le_min (by omega) (by omega)
        omega
      · omega

/-! ## The query cache: lemmas -/

theorem cacheValue_mem {cache : QueryCache} {key : QString} {v : List QString}
    (h : cacheValue cache key = some v) : (key, v) ∈ cache := by
  induction cache with
  | nil => simp [cacheValue] at h
  | cons kv rest ih =>
    obtain ⟨k, w⟩ := kv
    simp only [cacheValue] at h
    split at h
    · rename_i hk
      cases h
      subst hk
      exact List.mem_cons_self _ _
    · exact List.mem_cons_of_mem _ (ih h)

theorem cacheValue_eq_none_iff {cache : QueryCache} {key : QString} :
    cacheValue cache key = none ↔ key ∉ cache.map Prod.fst := by
  induction cache with
  | nil => simp [cacheValue]
  | cons kv rest ih =>
    obtain ⟨k, w⟩ := kv
    simp only [cacheValue, List.map_cons, List.mem_cons, not_or]
    split
    · rename_i hk
      simp [hk]
    · rename_i hk
      rw [ih]
      simp [Ne.symm hk]

theorem cacheInsert_length_le (cache : QueryCache) (key : QString) (v : List QString) :
    (cacheInsert cache key v).length ≤ cache.length + 1 := by
  simp only [cacheInsert, List.length_cons, add_le_add_iff_right]
  exact List.length_filter_le _ _

theorem cacheInsert_of_absent {cache : QueryCache} {key : QString} (v : List QString)
    (h : cacheValue cache key = none) : cacheInsert cache key v = (key, v) :: cache := by
  rw [cacheValue_eq_none_iff] at h
  simp only [cacheInsert, List.cons.injEq, true_and]
  apply List.filter_eq_self.2
  intro kv hkv
  simp only [ne_eq, decide_not, Bool.not_eq_eq_eq_not, Bool.not_true, decide_eq_false_iff_not]
  rintro rfl
  exact h (List.mem_map_of_mem _ hkv)

theorem mem_cacheInsert {cache : QueryCache} {key : QString} {v : List QString}
    {kv : QString × List QString} (h : kv ∈ cacheInsert cache key v) :
    kv = (key, v) ∨ kv ∈ cache := by
  simp only [cacheInsert, List.mem_cons] at h
  rcases h with h | h
  · exact Or.inl h
  · exact Or.inr (List.mem_filter.1 h).1

/-! ## `search`: lemmas -/

theorem mkBatches_flatten (entries : List FileEntry) (fuel i : Nat)
    (h : entries.length ≤ i + fuel) : (mkBatches entries fuel i).flatten = entries.drop i := by
  induction fuel generalizing i with
  | zero =>
    simp only [mkBatches, List.flatten_nil]
    exact (List.drop_eq_nil_of_le (by omega)).symm
  | succ fuel ih =>
    simp only [mkBatches]
    split
    · rename_i hi
      rw [List.flatten_cons, ih (i + 1000) (by omega)]
      have e : (entries.drop i).take (min (i + 1000) entries.length - i) =
          (entries.drop i).take 1000 := by
        rw [List.take_eq_take]
        simp only [List.length_drop]
        omega
      rw [e, ← List.drop_drop, List.take_append_drop]
    · rename_i hi
      simp only [List.flatten_nil]
      exact (List.drop_eq_nil_of_le (by omega)).symm

theorem scoreFileBatch_flatten (ql : QString) (L : List (List FileEntry)) :
    (L.map (scoreFileBatch ql)).flatten = scoreFileBatch ql L.flatten := by
  unfold scoreFileBatch
  rw [List.filterMap_flatten]

theorem rankedMatches_perm {sort : List ScoredMatch → List ScoredMatch}
    {sched : List (List ScoredMatch) → List (List ScoredMatch)}
    (hsort : IsStdSort sort) (hsched : IsSchedule sched)
    (entries : List FileEntry) (ql : QString) :
    (rankedMatches sort sched entries ql).Perm (scoreFileBatch ql entries) := by
  unfold rankedMatches
  refine ((hsort _).1).trans ?_
  refine ((hsched _).flatten).trans ?_
  rw [scoreFileBatch_flatten, mkBatches_flatten entries _ 0 (by omega), List.drop_zero]

theorem rankedMatches_sorted {sort : List ScoredMatch → List ScoredMatch}
    (hsort : IsStdSort sort) (sched : List (List ScoredMatch) → List (List ScoredMatch))
    (entries : List FileEntry) (ql : QString) :
    (rankedMatches sort sched entries ql).Pairwise (fun a b => ¬ b.2 > a.2) :=
  (hsort _).2

theorem rankedMatches_nil {sort : List ScoredMatch → List ScoredMatch}
    {sched : List (List ScoredMatch) → List (List ScoredMatch)}
    (hsort : IsStdSort sort) (hsched : IsSchedule sched) (ql : QString) :
    rankedMatches sort sched [] ql = [] :=
  List.Perm.eq_nil (by simpa [scoreFileBatch] using rankedMatches_perm hsort hsched [] ql)

theorem search_browse (sort : List ScoredMatch → List ScoredMatch)
    (sched : List (List ScoredMatch) → List (List ScoredMatch))
    (self : Engine) (maxResults : Int) :
    search sort sched self [] maxResults =
      ((self.m_entries.take (min maxResults self.m_entries.length).toNat).map FileEntry.fullPath,
        self) := by
  simp [search, toLower]

theorem search_hit (sort : List ScoredMatch → List ScoredMatch)
    (sched : List (List ScoredMatch) → List (List ScoredMatch))
    (self : Engine) (query : QString) (maxResults : Int) (cached : List QString)
    (hq : query ≠ []) (hc : cacheValue self.m_queryCache (toLower query) = some cached) :
    search sort sched self query maxResults = (mid0 cached maxResults, self) := by
  have hq' : (toLower query).isEmpty = false := by
    cases query <;> simp_all [toLower]
  simp [search, hq', hc]

theorem search_miss {sort : List ScoredMatch → List ScoredMatch}
    {sched : List (List ScoredMatch) → List (List ScoredMatch)}
    (hsort : IsStdSort sort) (hsched : IsSchedule sched)
    (self : Engine) (query : QString) (maxResults : Int)
    (hq : query ≠ []) (hc : cacheValue self.m_queryCache (toLower query) = none) :
    search sort sched self query maxResults =
      (missResults sort sched self.m_entries (toLower query) maxResults,
        if missResults sort sched self.m_entries (toLower query) maxResults ≠ [] ∧
            self.m_queryCache.length < 1000 then
          ⟨self.m_entries, cacheInsert self.m_queryCache (toLower query)
            (missResults sort sched self.m_entries (toLower query) maxResults)⟩
        else self) := by
  have hq' : (toLower query).isEmpty = false := by
    cases query <;> simp_all [toLower]
  unfold search
  simp only [hq', Bool.false_eq_true, if_false, hc]
  by_cases he : self.m_entries.isEmpty = true
  · have he' : self.m_entries = [] := List.isEmpty_iff.1 he
    simp [he', missResults, rankedMatches_nil hsort hsched]
  · simp only [he, Bool.false_eq_true, if_false, missResults, rankedMatches]
    split <;> rename_i h
    · rw [if_pos ⟨by simpa using h.1, h.2⟩]
    · rw [if_neg]
      intro h2
      exact h ⟨by simpa using h2.1, h2.2⟩

/-! ## The library parameters: instances of the contracts -/

theorem insertionSort_isStdSort (l : List ScoredMatch) :
    (l.insertionSort (fun a b => a.2 ≥ b.2)).Perm l ∧
      (l.insertionSort (fun a b => a.2 ≥ b.2)).Pairwise (fun a b => ¬ b.2 > a.2) := by
  haveI : IsTotal ScoredMatch (fun a b => a.2 ≥ b.2) := ⟨fun a b => le_total b.2 a.2⟩
  haveI : IsTrans ScoredMatch (fun a b => a.2 ≥ b.2) := ⟨fun _ _ _ h1 h2 => le_trans h2 h1⟩
  refine ⟨List.perm_insertionSort _ l, ?_⟩
  have h := List.sorted_insertionSort (fun a b : ScoredMatch => a.2 ≥ b.2) l
  unfold List.Sorted at h
  refine h.imp ?_
  intro a b hab
  exact not_lt.2 hab

theorem stableSort_isStdSort : IsStdSort stableSort :=
  fun l => insertionSort_isStdSort l

theorem reversingSort_isStdSort : IsStdSort reversingSort := fun l =>
  ⟨(insertionSort_isStdSort l.reverse).1.trans (List.reverse_perm l),
    (insertionSort_isStdSort l.reverse).2⟩

theorem inOrder_isSchedule : IsSchedule inOrder := fun l => List.Perm.refl l

theorem lastFirst_isSchedule : IsSchedule lastFirst := fun l => List.reverse_perm l

/-! ## Invariants of the reachable states -/

theorem mem_scoreFileBatch {ql : QString} {batch : List FileEntry} {x : ScoredMatch}
    (h : x ∈ scoreFileBatch ql batch) :
    ∃ e ∈ batch, e.fullPath = x.1 ∧ calculateScore ql e = x.2 ∧ calculateScore ql e > 0 := by
  unfold scoreFileBatch at h
  obtain ⟨e, he, hx⟩ := List.mem_filterMap.1 h
  split at hx
  · rename_i hpos
    cases hx
    exact ⟨e, he, rfl, rfl, hpos⟩
  · cases hx

theorem missResults_valid {sort : List ScoredMatch → List ScoredMatch}
    {sched : List (List ScoredMatch) → List (List ScoredMatch)}
    (hsort : IsStdSort sort) (hsched : IsSchedule sched)
    (entries : List FileEntry) (ql : QString) (maxResults : Int) :
    ∀ p ∈ missResults sort sched entries ql maxResults,
      ∃ e ∈ entries, e.fullPath = p ∧ calculateScore ql e > 0 := by
  intro p hp
  unfold missResults at hp
  obtain ⟨x, hx, rfl⟩ := List.mem_map.1 hp
  have hx' := (rankedMatches_perm hsort hsched entries ql).subset (List.mem_of_mem_take hx)
  obtain ⟨e, he, h1, _, h3⟩ := mem_scoreFileBatch hx'
  exact ⟨e, he, h1, h3⟩

theorem missResults_length_le (sort : List ScoredMatch → List ScoredMatch)
    (sched : List (List ScoredMatch) → List (List ScoredMatch))
    (entries : List FileEntry) (ql : QString) (k : Nat) :
    (missResults sort sched entries ql k).length ≤ k := by
  unfold missResults
  simp only [List.length_map, List.length_take]
  omega

/-- A search leaves the engine as it is, or it is a miss below the capacity
that binds the normalized query to the returned list. -/
theorem search_state {sort : List ScoredMatch → List ScoredMatch}
    {sched : List (List ScoredMatch) → List (List ScoredMatch)}
    (hsort : IsStdSort sort) (hsched : IsSchedule sched)
    (self : Engine) (query : QString) (maxResults : Int) :
    (search sort sched self query maxResults).2 = self ∨
      (self.m_queryCache.length < 1000 ∧
        (search sort sched self query maxResults).2 =
          ⟨self.m_entries, cacheInsert self.m_queryCache (toLower query)
            (missResults sort sched self.m_entries (toLower query) maxResults)⟩) := by
  by_cases hq : query = []
  · subst hq
    rw [search_browse]
    exact Or.inl rfl
  · cases hc : cacheValue self.m_queryCache (toLower query) with
    | some cached =>
      rw [search_hit sort sched self query maxResults cached hq hc]
      exact Or.inl rfl
    | none =>
      rw [search_miss hsort hsched self query maxResults hq hc]
      simp only
      split
      · rename_i h
        exact Or.inr ⟨h.2, rfl⟩
      · exact Or.inl rfl

theorem search_entries {sort : List ScoredMatch → List ScoredMatch}
    {sched : List (List ScoredMatch) → List (List ScoredMatch)}
    (hsort : IsStdSort sort) (hsched : IsSchedule sched)
    (self : Engine) (query : QString) (maxResults : Int) :
    (search sort sched self query maxResults).2.m_entries = self.m_entries := by
  rcases search_state hsort hsched self query maxResults with h | ⟨_, h⟩ <;> rw [h]

theorem reachable_cacheValid {sort : List ScoredMatch → List ScoredMatch}
    (hsort : IsStdSort sort) {self : Engine} (hr : Reachable sort self) : CacheValid self := by
  induction hr with
  | fresh => intro kv hkv; simp [fresh] at hkv
  | setCollection collection _ _ =>
    intro kv hkv
    unfold setCollection at hkv
    split at hkv <;> simp at hkv
  | @search self sched query maxResults hsched _ ih =>
    rcases search_state hsort hsched self query maxResults with h | ⟨_, h⟩
    · rw [h]; exact ih
    · rw [h]
      intro kv hkv p hp
      rcases mem_cacheInsert hkv with rfl | hkv
      · exact missResults_valid hsort hsched _ _ _ p hp
      · exact ih kv hkv p hp

theorem reachable_cache_length {sort : List ScoredMatch → List ScoredMatch}
    (hsort : IsStdSort sort) {self : Engine} (hr : Reachable sort self) :
    self.m_queryCache.length ≤ 1000 := by
  induction hr with
  | fresh => simp [fresh]
  | setCollection collection _ _ =>
    unfold setCollection
    split <;> simp
  | @search self sched query maxResults hsched _ ih =>
    rcases search_state hsort hsched self query maxResults with h | ⟨hlt, h⟩
    · rw [h]; exact ih
    · rw [h]
      have := cacheInsert_length_le self.m_queryCache (toLower query)
        (missResults sort sched self.m_entries (toLower query) maxResults)
      simp only
      omega

/-! ## The end-to-end example: lemmas -/

theorem demo_scored :
    scoreFileBatch (toLower "test".toList) (setCollection fresh demoCollection).m_entries =
      [("/a/test.cpp".toList, 800), ("/a/testing.cpp".toList, 800),
        ("/a/other.md".toList, 440)] := by
  decide

/-- A sorted arrangement of the three scored matches of the example. -/
theorem demo_ranked {L : List ScoredMatch}
    (hp : L.Perm [("/a/test.cpp".toList, 800), ("/a/testing.cpp".toList, 800),
      ("/a/other.md".toList, 440)])
    (hs : L.Pairwise (fun a b => ¬ b.2 > a.2)) :
    L = [("/a/test.cpp".toList, 800), ("/a/testing.cpp".toList, 800),
        ("/a/other.md".toList, 440)] ∨
      L = [("/a/testing.cpp".toList, 800), ("/a/test.cpp".toList, 800),
        ("/a/other.md".toList, 440)] := by
  have hlen := hp.length_eq
  match L, hlen with
  | [x, y, z], _ =>
    have hx : x ∈ [x, y, z] := by simp
    have hy : y ∈ [x, y, z] := by simp
    have hz : z ∈ [x, y, z] := by simp
    have hx' := hp.subset hx
    have hy' := hp.subset hy
    have hz' := hp.subset hz
    have hnd : [x, y, z].Nodup := hp.nodup_iff.2 (by decide)
    simp only [List.mem_cons, List.mem_singleton, List.not_mem_nil, or_false] at hx' hy' hz'
    rcases hx' with rfl | rfl | rfl <;> rcases hy' with rfl | rfl | rfl <;>
      rcases hz' with rfl | rfl | rfl <;> revert hnd hs <;> decide

theorem demo_search {sort : List ScoredMatch → List ScoredMatch}
    {sched : List (List ScoredMatch) → List (List ScoredMatch)}
    (hsort : IsStdSort sort) (hsched : IsSchedule sched) :
    (search sort sched (setCollection fresh demoCollection) "test".toList 10).1 =
        ["/a/test.cpp".toList, "/a/testing.cpp".toList, "/a/other.md".toList] ∨
      (search sort sched (setCollection fresh demoCollection) "test".toList 10).1 =
        ["/a/testing.cpp".toList, "/a/test.cpp".toList, "/a/other.md".toList] := by
  rw [search_miss hsort hsched _ _ _ (by decide) (by decide)]
  simp only [missResults]
  have hp := rankedMatches_perm hsort hsched (setCollection fresh demoCollection).m_entries
    (toLower "test".toList)
  rw [demo_scored] at hp
  rcases demo_ranked hp (rankedMatches_sorted hsort sched _ _) with h | h
  · rw [h]; exact Or.inl (by decide)
  · rw [h]; exact Or.inr (by decide)

/-! ## `setCollection` on distinct paths -/

theorem indexOf_append_self (p : QString) (done rest : List QString) (hp : p ∉ done) :
    List.indexOf p (done ++ p :: rest) = done.length := by
  induction done with
  | nil => simp [List.indexOf_cons]
  | cons d done ih =>
    have hd : d ≠ p := fun h => hp (by simp [h])
    have hp' : p ∉ done := fun h => hp (by simp [h])
    have hb : (d == p) = false := beq_eq_false_iff_ne.2 hd
    simp [List.indexOf_cons, hb, ih hp']

theorem fillEntries_aux (collection : List QString) (hnd : collection.Nodup) :
    ∀ (todo done : List QString), collection = done ++ todo →
      todo.foldl (fun es path => es.set (collection.indexOf path) (mkEntry path))
          (done.map mkEntry ++ List.replicate todo.length FileEntry.empty) =
        collection.map mkEntry := by
  intro todo
  induction todo with
  | nil =>
    intro done h
    simp [h]
  | cons p t ih =>
    intro done h
    have hp : p ∉ done := by
      intro hmem
      rw [h] at hnd
      exact (List.nodup_append.1 hnd).2.2 hmem (List.mem_cons_self _ _)
    have hidx : collection.indexOf p = done.length := by
      rw [h, indexOf_append_self p done t hp]
    simp only [List.foldl_cons, hidx, List.length_cons, List.replicate_succ]
    rw [List.set_append_right _ _ (by simp)]
    simp only [List.length_map, Nat.sub_self, List.set_cons_zero]
    have := ih (done ++ [p]) (by simp [h])
    simpa using this

theorem fillEntries_nodup (collection : List QString) (hnd : collection.Nodup) :
    fillEntries collection (List.replicate collection.length FileEntry.empty) =
      collection.map mkEntry := by
  have := fillEntries_aux collection hnd collection [] rfl
  simpa [fillEntries] using this

theorem setCollection_nodup (self : Engine) (collection : List QString)
    (hnd : collection.Nodup) :
    setCollection self collection = ⟨collection.map mkEntry, []⟩ := by
  unfold setCollection
  split
  · rename_i h
    rw [List.isEmpty_iff.1 h]
    rfl
  · rw [fillEntries_nodup collection hnd]

/-! ## The stable sort: lemmas -/

theorem stableSort_cons_max (x : ScoredMatch) (l : List ScoredMatch)
    (h : ∀ y ∈ l, y.2 ≤ x.2) : stableSort (x :: l) = x :: stableSort l := by
  unfold stableSort
  exact List.insertionSort_cons (fun a b : ScoredMatch => a.2 ≥ b.2) h

/-! ## A collection of two batches -/

theorem bigCollection_nodup : bigCollection.Nodup := by
  unfold bigCollection
  have hmid : ((List.range 999).map (fun i => '/' :: List.replicate (i + 2) 'j')).Nodup := by
    refine List.Nodup.map ?_ (List.nodup_range 999)
    intro i j h
    have := congrArg List.length h
    simp only [List.length_cons, List.length_replicate] at this
    omega
  have hA : ∀ i : Nat, "/a/z".toList ≠ '/' :: List.replicate (i + 2) 'j' := by
    intro i h
    rw [List.replicate_succ] at h
    revert h
    simp [String.toList]
  have hB : ∀ i : Nat, "/b/z".toList ≠ '/' :: List.replicate (i + 2) 'j' := by
    intro i h
    rw [List.replicate_succ] at h
    revert h
    simp [String.toList]
  rw [List.nodup_cons]
  constructor
  · simp only [List.mem_append, List.mem_map, List.mem_range, List.mem_singleton, not_or,
      not_exists, not_and]
    exact ⟨fun i _ h => hA i h.symm, by decide⟩
  · rw [List.nodup_append]
    refine ⟨hmid, by simp, ?_⟩
    intro p hp hq
    simp only [List.mem_singleton] at hq
    subst hq
    simp only [List.mem_map, List.mem_range] at hp
    obtain ⟨i, _, h⟩ := hp
    exact hB i h.symm

theorem big_entries (self : Engine) :
    setCollection self bigCollection = ⟨bigEntries, []⟩ := by
  rw [setCollection_nodup self bigCollection bigCollection_nodup]
  simp [bigCollection, bigEntries]

theorem mkBatches_two (x y : FileEntry) (l : List FileEntry) (hl : l.length = 999)
    (fuel : Nat) : mkBatches (x :: (l ++ [y])) (fuel + 2) 0 = [x :: l, [y]] := by
  have hlen : (x :: (l ++ [y])).length = 1001 := by simp [hl]
  have h3 : mkBatches (x :: (l ++ [y])) fuel 2000 = [] := by
    cases fuel with
    | zero => rfl
    | succ n =>
      simp only [mkBatches, hlen]
      rfl
  rw [mkBatches, if_pos (by rw [hlen]; omega), mkBatches, if_pos (by rw [hlen]; omega), h3, hlen]
  have e1 : List.take (min (0 + 1000) 1001 - 0) (List.drop 0 (x :: (l ++ [y]))) = x :: l := by
    have : min (0 + 1000) 1001 - 0 = (x :: l).length := by simp [hl]
    rw [this, List.drop_zero, ← List.cons_append, List.take_left]
  have e2 : List.take (min (0 + 1000 + 1000) 1001 - (0 + 1000))
      (List.drop (0 + 1000) (x :: (l ++ [y]))) = [y] := by
    have : 0 + 1000 = (x :: l).length := by simp [hl]
    rw [this, ← List.cons_append, List.drop_left]
    simp [hl]
  rw [e1, e2]

theorem fileNameAux_replicate (n : Nat) (acc : QString) :
    fileNameAux (List.replicate n 'j') acc = acc.reverse ++ List.replicate n 'j' := by
  induction n generalizing acc with
  | zero => simp [fileNameAux]
  | succ n ih =>
    rw [List.replicate_succ, fileNameAux, if_neg (by decide), ih]
    simp

theorem mkEntry_replicate (n : Nat) :
    mkEntry ('/' :: List.replicate n 'j') =
      ⟨'/' :: List.replicate n 'j', List.replicate n 'j', List.replicate n 'j'⟩ := by
  have h1 : fileName ('/' :: List.replicate n 'j') = List.replicate n 'j' := by
    unfold fileName
    rw [fileNameAux, if_pos rfl, fileNameAux_replicate]
    simp
  have h2 : toLower (List.replicate n 'j') = List.replicate n 'j' := by
    unfold toLower
    rw [List.map_replicate]
    rfl
  simp only [mkEntry, h1, h2]

theorem calculateScore_pos_of_sublist {q : QString} {e : FileEntry} (hq : q ≠ [])
    (hs : q.Sublist e.lowerName) : calculateScore q e > 0 := by
  have h0 := (calculateScore_bounds q e).1
  have hne : calculateScore q e ≠ 0 := fun h =>
    ((calculateScore_eq_zero_iff q e hq).1 h).1 hs
  omega

theorem scoreFileBatch_le {ql : QString} {batch : List FileEntry} {y : ScoredMatch}
    (h : y ∈ scoreFileBatch ql batch) : y.2 ≤ 1000 := by
  obtain ⟨e, _, _, h2, _⟩ := mem_scoreFileBatch h
  rw [← h2]
  exact (calculateScore_bounds ql e).2

theorem big_batches :
    (mkBatches bigEntries bigEntries.length 0).map (scoreFileBatch "z".toList) =
      [("/a/z".toList, 1000) :: scoreFileBatch "z".toList
          (((List.range 999).map (fun i => '/' :: List.replicate (i + 2) 'j')).map mkEntry),
        [("/b/z".toList, 1000)]] := by
  have hlen : bigEntries.length = 999 + 2 := by simp [bigEntries]
  rw [hlen]
  unfold bigEntries
  rw [mkBatches_two _ _ _ (by simp)]
  have hA : calculateScore "z".toList (mkEntry "/a/z".toList) = 1000 := by decide
  have hB : scoreFileBatch "z".toList [mkEntry "/b/z".toList] = [("/b/z".toList, 1000)] := by
    decide
  simp only [List.map_cons, List.map_nil, hB]
  congr 1

/-- With the stable sort and the batches in index order, the best match of
`z` in the two-batch Index is `/a/z`. -/
theorem big_missResults_inOrder (k : Nat) :
    ∃ tl, missResults stableSort inOrder bigEntries "z".toList ((k + 1 : Nat) : Int) =
      "/a/z".toList :: tl := by
  unfold missResults rankedMatches
  rw [big_batches]
  simp only [inOrder, List.flatten_cons, List.flatten_nil, List.append_nil, List.cons_append]
  rw [stableSort_cons_max]
  · have e : ∀ n : Nat, (min ((k + 1 : Nat) : Int) ((n + 1 : Nat) : Int)).toNat =
        (min k n) + 1 := by
      intro n
      omega
    rw [List.length_cons, e, List.take_succ_cons, List.map_cons]
    exact ⟨_, rfl⟩
  · intro y hy
    rcases List.mem_append.1 hy with hy | hy
    · exact scoreFileBatch_le hy
    · simp only [List.mem_singleton] at hy
      subst hy
      exact le_refl _

/-- With the stable sort and the second batch appending first, the best match
of `z` in the two-batch Index is `/b/z`. -/
theorem big_missResults_lastFirst (k : Nat) :
    ∃ tl, missResults stableSort lastFirst bigEntries "z".toList ((k + 1 : Nat) : Int) =
      "/b/z".toList :: tl := by
  unfold missResults rankedMatches
  rw [big_batches]
  simp only [lastFirst, List.reverse_cons, List.reverse_nil, List.nil_append,
    List.singleton_append, List.flatten_cons, List.flatten_nil, List.append_nil,
    List.cons_append]
  rw [stableSort_cons_max]
  · have e : ∀ n : Nat, (min ((k + 1 : Nat) : Int) ((n + 1 : Nat) : Int)).toNat =
        (min k n) + 1 := by
      intro n
      omega
    rw [List.length_cons, e, List.take_succ_cons, List.map_cons]
    exact ⟨_, rfl⟩
  · intro y hy
    rcases List.mem_cons.1 hy with hy | hy
    · subst hy
      exact le_refl _
    · exact scoreFileBatch_le hy

theorem big_missResults_one {sched : List (List ScoredMatch) → List (List ScoredMatch)}
    {p : QString} {tl : List QString}
    (h : missResults stableSort sched bigEntries "z".toList ((0 + 1 : Nat) : Int) = p :: tl) :
    missResults stableSort sched bigEntries "z".toList 1 = [p] := by
  have hlen := missResults_length_le stableSort sched bigEntries "z".toList 1
  simp only [zero_add, Nat.cast_one] at h hlen
  rw [h] at hlen ⊢
  simp only [List.length_cons] at hlen
  have : tl.length = 0 := by omega
  rw [List.length_eq_zero.1 this]

/-! ## The returned list, case by case -/

theorem search_fst (sort : List ScoredMatch → List ScoredMatch)
    (sched : List (List ScoredMatch) → List (List ScoredMatch))
    (self : Engine) (query : QString) (maxResults : Int) :
    (search sort sched self query maxResults).1 =
      if (toLower query).isEmpty then
        (self.m_entries.take (min maxResults self.m_entries.length).toNat).map
          FileEntry.fullPath
      else
        match cacheValue self.m_queryCache (toLower query) with
        | some cachedResults => mid0 cachedResults maxResults
        | none =>
          if self.m_entries.isEmpty then []
          else missResults sort sched self.m_entries (toLower query) maxResults := by
  by_cases hq : (toLower query).isEmpty = true
  · simp [search, hq]
  · have hq' : (toLower query).isEmpty = false := by simpa using hq
    cases hc : cacheValue self.m_queryCache (toLower query) with
    | some cached => simp [search, hq', hc]
    | none =>
      by_cases he : self.m_entries.isEmpty = true
      · simp [search, hq', hc, he]
      · have he' : self.m_entries.isEmpty = false := by simpa using he
        simp only [search, hq', hc, he', Bool.false_eq_true, if_false, missResults,
          rankedMatches]
        split <;> rfl

theorem take_min_length {α : Type} (l : List α) (k : Nat) :
    l.take (min (k : Int) (l.length : Int)).toNat = l.take k := by
  have e : (min (k : Int) (l.length : Int)).toNat = min k l.length := by omega
  rw [e, List.take_eq_take]
  simp

theorem missResults_nat (sort : List ScoredMatch → List ScoredMatch)
    (sched : List (List ScoredMatch) → List (List ScoredMatch))
    (entries : List FileEntry) (ql : QString) (k : Nat) :
    missResults sort sched entries ql k =
      ((rankedMatches sort sched entries ql).take k).map Prod.fst := by
  unfold missResults
  rw [take_min_length]

theorem mid0_nat (l : List QString) (k : Nat) : mid0 l k = l.take k := by
  unfold mid0
  rw [if_neg (by omega)]
  simp

/-- For one engine state, one `std::sort` and one batch order, the list for
`k` is a prefix of the list for `k + 1`. -/
theorem search_isPrefix (sort : List ScoredMatch → List ScoredMatch)
    (sched : List (List ScoredMatch) → List (List ScoredMatch))
    (self : Engine) (q : QString) (k : Nat) :
    (search sort sched self q k).1 <+: (search sort sched self q ((k + 1 : Nat) : Int)).1 := by
  rw [search_fst, search_fst]
  split
  · rw [take_min_length, take_min_length]
    exact (List.take_prefix_take_left _ (Nat.le_succ k)).map _
  · split
    · rw [mid0_nat, mid0_nat]
      exact List.take_prefix_take_left _ (Nat.le_succ k)
    · split
      · exact List.prefix_refl _
      · rw [missResults_nat, missResults_nat]
        exact (List.take_prefix_take_left _ (Nat.le_succ k)).map _

/-! ## An Index of one batch -/

theorem mkBatches_length_le_one (entries : List FileEntry) (h : entries.length ≤ 1000) :
    (mkBatches entries entries.length 0).length ≤ 1 := by
  cases hn : entries.length with
  | zero => simp [mkBatches]
  | succ n =>
    rw [mkBatches, if_pos (by omega)]
    cases n with
    | zero => simp [mkBatches]
    | succ m =>
      rw [mkBatches, if_neg (by omega)]
      simp

theorem perm_eq_of_length_le_one {α : Type} {l l' : List α} (hp : l'.Perm l)
    (h : l.length ≤ 1) : l' = l := by
  match l, h with
  | [], _ => exact hp.eq_nil
  | [a], _ => exact List.perm_singleton.1 hp

/-- With at most 1000 entries there is one batch, and every batch order
gives the same `scoredStrings`. -/
theorem rankedMatches_one_batch (sort : List ScoredMatch → List ScoredMatch)
    {sched sched' : List (List ScoredMatch) → List (List ScoredMatch)}
    (hsched : IsSchedule sched) (hsched' : IsSchedule sched')
    (entries : List FileEntry) (h : entries.length ≤ 1000) (ql : QString) :
    rankedMatches sort sched entries ql = rankedMatches sort sched' entries ql := by
  unfold rankedMatches
  have hl : ((mkBatches entries entries.length 0).map (scoreFileBatch ql)).length ≤ 1 := by
    rw [List.length_map]
    exact mkBatches_length_le_one entries h
  rw [perm_eq_of_length_le_one (hsched _) hl, perm_eq_of_length_le_one (hsched' _) hl]

theorem missResults_one_batch (sort : List ScoredMatch → List ScoredMatch)
    {sched sched' : List (List ScoredMatch) → List (List ScoredMatch)}
    (hsched : IsSchedule sched) (hsched' : IsSchedule sched')
    (entries : List FileEntry) (h : entries.length ≤ 1000) (ql : QString) (k : Int) :
    missResults sort sched entries ql k = missResults sort sched' entries ql k := by
  unfold missResults
  rw [rankedMatches_one_batch sort hsched hsched' entries h ql]

theorem search_fst_one_batch (sort : List ScoredMatch → List ScoredMatch)
    {sched sched' : List (List ScoredMatch) → List (List ScoredMatch)}
    (hsched : IsSchedule sched) (hsched' : IsSchedule sched')
    (self : Engine) (h : self.m_entries.length ≤ 1000) (q : QString) (k : Int) :
    (search sort sched self q k).1 = (search sort sched' self q k).1 := by
  rw [search_fst, search_fst, missResults_one_batch sort hsched hsched' _ h]

/-! ## The stable sort with batches in index order -/

theorem scoreFileBatch_eq_map_filter (ql : QString) (l : List FileEntry) :
    scoreFileBatch ql l =
      (l.filter (fun e => decide (calculateScore ql e > 0))).map
        (fun e => (e.fullPath, calculateScore ql e)) := by
  induction l with
  | nil => rfl
  | cons e l ih =>
    unfold scoreFileBatch at ih ⊢
    by_cases h : calculateScore ql e > 0
    · simp [List.filterMap_cons, List.filter_cons, h, ih]
    · simp [List.filterMap_cons, List.filter_cons, h, ih]

theorem rankedMatches_stable_inOrder (entries : List FileEntry) (ql : QString) :
    rankedMatches stableSort inOrder entries ql = stableSort (scoreFileBatch ql entries) := by
  unfold rankedMatches inOrder
  rw [scoreFileBatch_flatten, mkBatches_flatten entries _ 0 (by omega), List.drop_zero]

theorem missResults_stable_inOrder (entries : List FileEntry) (ql : QString) (k : Nat) :
    missResults stableSort inOrder entries ql k = specRanking entries ql k := by
  rw [missResults_nat, rankedMatches_stable_inOrder, scoreFileBatch_eq_map_filter]
  rfl

/-! ## Empty results and the cache after an insertion -/

theorem missResults_eq_nil_iff {sort : List ScoredMatch → List ScoredMatch}
    {sched : List (List ScoredMatch) → List (List ScoredMatch)}
    (hsort : IsStdSort sort) (hsched : IsSchedule sched)
    (entries : List FileEntry) (ql : QString) (k : Nat) :
    missResults sort sched entries ql k = [] ↔ k = 0 ∨ scoreFileBatch ql entries = [] := by
  rw [missResults_nat, List.map_eq_nil_iff, List.take_eq_nil_iff]
  constructor
  · rintro (h | h)
    · exact Or.inl h
    · have hp := rankedMatches_perm hsort hsched entries ql
      rw [h] at hp
      exact Or.inr hp.symm.eq_nil
  · rintro (h | h)
    · exact Or.inl h
    · have hp := rankedMatches_perm hsort hsched entries ql
      rw [h] at hp
      exact Or.inr hp.eq_nil

theorem cacheValue_cacheInsert_self (cache : QueryCache) (key : QString) (v : List QString) :
    cacheValue (cacheInsert cache key v) key = some v := by
  simp [cacheInsert, cacheValue]

/-! ## A reachable state with a full cache -/

theorem missResults_ne_nil {sort : List ScoredMatch → List ScoredMatch}
    {sched : List (List ScoredMatch) → List (List ScoredMatch)}
    (hsort : IsStdSort sort) (hsched : IsSchedule sched)
    {entries : List FileEntry} {ql : QString} {e : FileEntry} (he : e ∈ entries)
    (hpos : calculateScore ql e > 0) :
    missResults sort sched entries ql 1 ≠ [] := by
  intro h
  have h' : missResults sort sched entries ql ((1 : Nat) : Int) = [] := h
  rcases (missResults_eq_nil_iff hsort hsched entries ql 1).1 h' with h0 | h0
  · omega
  · rw [scoreFileBatch_eq_map_filter, List.map_eq_nil_iff, List.filter_eq_nil_iff] at h0
    exact h0 e he (by simpa using hpos)

theorem searchAll_spec {sort : List ScoredMatch → List ScoredMatch} (hsort : IsStdSort sort)
    (queries : List QString) :
    ∀ self : Engine,
      (∀ q ∈ queries, q ≠ [] ∧ toLower q = q ∧
        ∃ e ∈ self.m_entries, calculateScore q e > 0) →
      queries.Nodup →
      (∀ q ∈ queries, q ∉ self.m_queryCache.map Prod.fst) →
      self.m_queryCache.length + queries.length ≤ 1000 →
      (searchAll sort self queries).m_entries = self.m_entries ∧
        (searchAll sort self queries).m_queryCache.map Prod.fst =
          queries.reverse ++ self.m_queryCache.map Prod.fst := by
  induction queries with
  | nil =>
    intro self _ _ _ _
    simp [searchAll]
  | cons q qs ih =>
    intro self hall hnd hnew hlen
    obtain ⟨hq, hlow, e, he, hpos⟩ := hall q (List.mem_cons_self _ _)
    have hmiss : cacheValue self.m_queryCache (toLower q) = none := by
      rw [hlow]
      exact cacheValue_eq_none_iff.2 (hnew q (List.mem_cons_self _ _))
    have hne : missResults sort inOrder self.m_entries (toLower q) 1 ≠ [] := by
      rw [hlow]
      exact missResults_ne_nil hsort inOrder_isSchedule he hpos
    have hlt : self.m_queryCache.length < 1000 := by
      simp only [List.length_cons] at hlen
      omega
    have hstep : (search sort inOrder self q 1).2 =
        ⟨self.m_entries, (toLower q, missResults sort inOrder self.m_entries (toLower q) 1) ::
          self.m_queryCache⟩ := by
      rw [search_miss hsort inOrder_isSchedule self q 1 hq hmiss]
      simp only
      rw [if_pos ⟨hne, hlt⟩, cacheInsert_of_absent _ hmiss]
    have hunf : searchAll sort self (q :: qs) =
        searchAll sort (search sort inOrder self q 1).2 qs := rfl
    rw [hunf, hstep]
    have key := ih ⟨self.m_entries,
        (toLower q, missResults sort inOrder self.m_entries (toLower q) 1) ::
          self.m_queryCache⟩
      (fun q' hq' => hall q' (List.mem_cons_of_mem _ hq'))
      (List.nodup_cons.1 hnd).2
      (by
        intro q' hq' hmem
        simp only [List.map_cons, List.mem_cons, hlow] at hmem
        rcases hmem with hmem | hmem
        · subst hmem
          exact (List.nodup_cons.1 hnd).1 hq'
        · exact hnew q' (List.mem_cons_of_mem _ hq') hmem)
      (by
        simp only [List.length_cons] at hlen ⊢
        omega)
    refine ⟨key.1, ?_⟩
    rw [key.2]
    simp [hlow]

theorem reachable_searchAll {sort : List ScoredMatch → List ScoredMatch}
    (queries : List QString) :
    ∀ self : Engine, Reachable sort self → Reachable sort (searchAll sort self queries) := by
  induction queries with
  | nil => exact fun self h => h
  | cons q qs ih =>
    intro self h
    exact ih _ (Reachable.search inOrder q 1 inOrder_isSchedule h)

theorem fillQueries_nodup : fillQueries.Nodup := by
  unfold fillQueries
  refine List.Nodup.map ?_ (List.nodup_range 1000)
  intro i j h
  have := congrArg List.length h
  simp only [List.length_replicate] at this
  omega

theorem fillQueries_match :
    ∀ q ∈ fillQueries, q ≠ [] ∧ toLower q = q ∧
      ∃ e ∈ (setCollection fresh bigCollection).m_entries, calculateScore q e > 0 := by
  intro q hq
  unfold fillQueries at hq
  obtain ⟨i, hi, rfl⟩ := List.mem_map.1 hq
  have hi' : i < 1000 := List.mem_range.1 hi
  have hne : List.replicate (i + 1) 'j' ≠ [] := by simp
  refine ⟨hne, ?_, ?_⟩
  · unfold toLower
    rw [List.map_replicate]
    rfl
  · rw [big_entries]
    refine ⟨mkEntry ('/' :: List.replicate 1000 'j'), ?_, ?_⟩
    · unfold bigEntries
      refine List.mem_cons_of_mem _ (List.mem_append_left _ ?_)
      refine List.mem_map_of_mem _ ?_
      exact List.mem_map.2 ⟨998, List.mem_range.2 (by omega), rfl⟩
    · apply calculateScore_pos_of_sublist hne
      rw [mkEntry_replicate]
      exact (List.replicate_sublist_replicate 'j').2 (by omega)

theorem fullState_spec :
    fullState.m_entries = bigEntries ∧
      fullState.m_queryCache.length = 1000 ∧
      cacheValue fullState.m_queryCache (toLower "z".toList) = none := by
  have h := searchAll_spec stableSort_isStdSort fillQueries (setCollection fresh bigCollection)
    fillQueries_match fillQueries_nodup
    (by rw [big_entries]; simp)
    (by rw [big_entries]; simp [fillQueries])
  rw [big_entries] at h
  have hkeys : fullState.m_queryCache.map Prod.fst = fillQueries.reverse := by
    have := h.2
    simpa [fullState, big_entries] using this
  refine ⟨by simpa [fullState, big_entries] using h.1, ?_, ?_⟩
  · have := congrArg List.length hkeys
    simpa [fillQueries] using this
  · rw [cacheValue_eq_none_iff, hkeys]
    have hz : toLower "z".toList = "z".toList := by decide
    rw [hz, List.mem_reverse]
    unfold fillQueries
    intro hmem
    obtain ⟨i, _, hi⟩ := List.mem_map.1 hmem
    rw [List.replicate_succ] at hi
    revert hi
    simp [String.toList]

theorem fullState_reachable : Reachable stableSort fullState :=
  reachable_searchAll fillQueries _ (Reachable.setCollection bigCollection Reachable.fresh)

theorem fullState_search {sched : List (List ScoredMatch) → List (List ScoredMatch)}
    (hsched : IsSchedule sched) :
    search stableSort sched fullState "z".toList 1 =
      (missResults stableSort sched bigEntries "z".toList 1, fullState) := by
  obtain ⟨h1, h2, h3⟩ := fullState_spec
  have hz : toLower "z".toList = "z".toList := by decide
  rw [search_miss stableSort_isStdSort hsched fullState "z".toList 1 (by decide) h3, h1, hz,
    if_neg]
  rintro ⟨_, hlt⟩
  omega

/-! ## The standard distance: recurrences -/

theorem standardLevenshtein_nil_left (b : QString) : standardLevenshtein [] b = b.length := by
  unfold standardLevenshtein
  induction b with
  | nil => simp
  | cons y b ih =>
    rw [levenshtein_nil_cons, ih, List.length_cons]
    show 1 + b.length = b.length + 1
    omega

theorem standardLevenshtein_nil_right (a : QString) : standardLevenshtein a [] = a.length := by
  unfold standardLevenshtein
  induction a with
  | nil => simp
  | cons x a ih =>
    rw [levenshtein_cons_nil, ih, List.length_cons]
    show 1 + a.length = a.length + 1
    omega

theorem standardLevenshtein_cons_cons (x y : Char) (a b : QString) :
    standardLevenshtein (x :: a) (y :: b) =
      min (1 + standardLevenshtein a (y :: b))
        (min (1 + standardLevenshtein (x :: a) b)
          ((if x = y then 0 else 1) + standardLevenshtein a b)) := by
  unfold standardLevenshtein
  rw [levenshtein_cons_cons]
  rfl

theorem standardLevenshtein_snoc_nil (x y : Char) (b : QString) :
    standardLevenshtein [x] (b ++ [y]) =
      min (standardLevenshtein [] (b ++ [y]) + 1)
        (min (standardLevenshtein [x] b + 1)
          (standardLevenshtein [] b + (if x = y then 0 else 1))) := by
  induction b with
  | nil =>
    simp only [List.nil_append, standardLevenshtein_cons_cons, standardLevenshtein_nil_left,
      standardLevenshtein_nil_right, List.length_cons, List.length_nil]
    split <;> omega
  | cons b0 b ih =>
    simp only [List.cons_append, standardLevenshtein_cons_cons, standardLevenshtein_nil_left,
      standardLevenshtein_nil_right, List.length_cons, List.length_append, List.length_nil] at ih ⊢
    rw [ih]
    split <;> split <;> omega

theorem min_nine (A B C D E F G H I c c0 : Nat) :
    min (1 + min (A + 1) (min (B + 1) (C + c)))
        (min (1 + min (D + 1) (min (E + 1) (F + c))) (c0 + min (G + 1) (min (H + 1) (I + c)))) =
      min (min (1 + A) (min (1 + D) (c0 + G)) + 1)
        (min (min (1 + B) (min (1 + E) (c0 + H)) + 1)
          (min (1 + C) (min (1 + F) (c0 + I)) + c)) := by
  simp only [← min_add_add_left, ← min_add_add_right]
  simp only [min_assoc, min_comm, min_left_comm, add_assoc, add_comm, add_left_comm]

/-- The standard distance satisfies the recurrence on the last characters,
the one the row-by-row table uses. -/
theorem standardLevenshtein_snoc_snoc (x y : Char) (a b : QString) :
    standardLevenshtein (a ++ [x]) (b ++ [y]) =
      min (standardLevenshtein a (b ++ [y]) + 1)
        (min (standardLevenshtein (a ++ [x]) b + 1)
          (standardLevenshtein a b + (if x = y then 0 else 1))) := by
  induction a generalizing b with
  | nil => exact standardLevenshtein_snoc_nil x y b
  | cons a0 a iha =>
    induction b with
    | nil =>
      have h1 := iha []
      simp only [List.nil_append, List.cons_append, standardLevenshtein_cons_cons,
        standardLevenshtein_nil_right, List.length_cons, List.length_append,
        List.length_nil] at h1 ⊢
      rw [h1]
      split <;> split <;> omega
    | cons b0 b ihb =>
      have h1 := iha (b0 :: b)
      have h2 := iha b
      simp only [List.cons_append] at h1 h2 ihb ⊢
      rw [standardLevenshtein_cons_cons a0 b0 (a ++ [x]) (b ++ [y]), h1, ihb, h2,
        standardLevenshtein_cons_cons a0 b0 a (b ++ [y]),
        standardLevenshtein_cons_cons a0 b0 (a ++ [x]) b,
        standardLevenshtein_cons_cons a0 b0 a b]
      exact min_nine _ _ _ _ _ _ _ _ _ _ _

theorem standardLevenshtein_single_le (y : Char) (p : QString) (hp : p ≠ []) :
    standardLevenshtein p [y] ≤ p.length := by
  induction p with
  | nil => exact absurd rfl hp
  | cons x p _ =>
    rw [standardLevenshtein_cons_cons, standardLevenshtein_nil_right,
      standardLevenshtein_nil_right, List.length_cons]
    have : (if x = y then 0 else 1) ≤ 1 := by split <;> omega
    omega

theorem length_le_add_standardLevenshtein (a b : QString) :
    b.length ≤ a.length + standardLevenshtein a b := by
  induction a generalizing b with
  | nil => rw [standardLevenshtein_nil_left]; omega
  | cons x a iha =>
    induction b with
    | nil => simp
    | cons y b ihb =>
      have h1 := iha (y :: b)
      have h2 := iha b
      rw [standardLevenshtein_cons_cons]
      simp only [List.length_cons] at h1 h2 ihb ⊢
      omega

/-! ## The table of `levenshteinDistance` holds the standard distances -/

theorem distanceRow_length (p done rest : QString) :
    (distanceRow p done rest).length = rest.length + 1 := by
  induction rest generalizing done with
  | nil => rfl
  | cons d rest ih => simp [distanceRow, ih]

theorem distanceRow_getD_last (p done rest : QString) :
    (distanceRow p done rest).getD rest.length 0 = standardLevenshtein p (done ++ rest) := by
  induction rest generalizing done with
  | nil => simp [distanceRow]
  | cons d rest ih =>
    simp only [distanceRow, List.length_cons, List.getD_cons_succ]
    rw [ih]
    simp

theorem distanceRow_nil (done rest : QString) :
    distanceRow [] done rest =
      (List.range (rest.length + 1)).map (fun k => ((done.length + k : Nat) : Int)) := by
  induction rest generalizing done with
  | nil => simp [distanceRow, standardLevenshtein_nil_left, List.range_succ]
  | cons d rest ih =>
    rw [distanceRow, ih, standardLevenshtein_nil_left, List.length_cons,
      List.range_succ_eq_map (rest.length + 1)]
    simp only [List.map_cons, List.map_map, List.length_append, List.length_singleton,
      Nat.add_zero]
    congr 1
    apply List.map_congr_left
    intro k _
    simp only [Function.comp]
    congr 1
    omega

/-- The inner loop turns the row of the prefix `p` into the row of `p ++ [c]`. -/
theorem levRow_distanceRow (c : Char) (p done rest : QString) :
    levRow c rest (distanceRow p done rest) (standardLevenshtein (p ++ [c]) done : Int) =
      (distanceRow (p ++ [c]) done rest).tail := by
  induction rest generalizing done with
  | nil => simp [levRow, distanceRow]
  | cons d rest ih =>
    have hrow : distanceRow p (done ++ [d]) rest =
        (standardLevenshtein p (done ++ [d]) : Int) :: (distanceRow p (done ++ [d]) rest).tail := by
      cases rest <;> simp [distanceRow]
    have hv : min (min ((standardLevenshtein (p ++ [c]) done : Int) + 1)
          ((standardLevenshtein p (done ++ [d]) : Int) + 1))
          ((standardLevenshtein p done : Int) + (if c = d then 0 else 1)) =
        (standardLevenshtein (p ++ [c]) (done ++ [d]) : Int) := by
      rw [standardLevenshtein_snoc_snoc]
      split <;> omega
    rw [distanceRow, hrow, levRow]
    rw [hv, ← hrow, ih (done ++ [d])]
    cases rest <;> simp [distanceRow]

theorem distanceRow_cons_tail (p done rest : QString) :
    distanceRow p done rest =
      (standardLevenshtein p done : Int) :: (distanceRow p done rest).tail := by
  cases rest <;> simp [distanceRow]

/-- The outer loop from the row of the prefix `p`: it returns the standard
distance, or the threshold when the standard distance is at least the
threshold; the threshold is the length of the first string. -/
theorem levLoop_spec (s2 : QString) (hs2 : s2 ≠ []) (rest p : QString) :
    levLoop ((p ++ rest).length : Int) s2 rest (p.length : Int) (distanceRow p [] s2) =
        (standardLevenshtein (p ++ rest) s2 : Int) ∨
      (levLoop ((p ++ rest).length : Int) s2 rest (p.length : Int) (distanceRow p [] s2) =
          ((p ++ rest).length : Int) ∧
        (p ++ rest).length ≤ standardLevenshtein (p ++ rest) s2) := by
  induction rest generalizing p with
  | nil =>
    left
    rw [levLoop, distanceRow_getD_last]
    simp
  | cons c rest ih =>
    have hcur : ((p.length : Int) + 1) = (standardLevenshtein (p ++ [c]) [] : Int) := by
      rw [standardLevenshtein_nil_right]
      simp
    have htail : levRow c s2 (distanceRow p [] s2) ((p.length : Int) + 1) =
        (distanceRow (p ++ [c]) [] s2).tail := by
      rw [hcur, levRow_distanceRow]
    have hnext : ((p.length : Int) + 1) :: (distanceRow (p ++ [c]) [] s2).tail =
        distanceRow (p ++ [c]) [] s2 := by
      rw [hcur]
      exact (distanceRow_cons_tail _ _ _).symm
    rw [levLoop]
    simp only [htail]
    split
    · rename_i hall
      right
      refine ⟨rfl, ?_⟩
      obtain ⟨y, s2', rfl⟩ := List.exists_cons_of_ne_nil hs2
      cases rest with
      | nil =>
        have hlast := distanceRow_getD_last (p ++ [c]) [] (y :: s2')
        have hmem : ((standardLevenshtein (p ++ [c]) (y :: s2') : Nat) : Int) ∈
            (distanceRow (p ++ [c]) [] (y :: s2')).tail := by
          rw [List.nil_append] at hlast
          rw [← hlast, distanceRow_cons_tail (p ++ [c]) [] (y :: s2'), List.length_cons,
            List.getD_cons_succ, List.tail_cons, List.getD_eq_getElem?_getD]
          have hlen : s2'.length < (distanceRow (p ++ [c]) [] (y :: s2')).tail.length := by
            rw [List.length_tail, distanceRow_length]
            simp
          rw [List.getElem?_eq_getElem hlen]
          exact List.getElem_mem _
        have := List.all_eq_true.1 hall _ hmem
        simp only [Bool.not_eq_true', decide_eq_false_iff_not, not_lt] at this
        exact_mod_cast this
      | cons c' rest' =>
        exfalso
        have hmem : ((standardLevenshtein (p ++ [c]) [y] : Nat) : Int) ∈
            (distanceRow (p ++ [c]) [] (y :: s2')).tail := by
          rw [distanceRow, List.tail_cons, distanceRow_cons_tail]
          exact List.mem_cons_self _ _
        have h1 := List.all_eq_true.1 hall _ hmem
        simp only [Bool.not_eq_true', decide_eq_false_iff_not, not_lt] at h1
        have h2 := standardLevenshtein_single_le y (p ++ [c]) (by simp)
        simp only [List.length_append, List.length_cons, List.length_nil] at h1 h2
        push_cast at h1
        omega
    · rw [hnext]
      have key := ih (p ++ [c])
      simp only [List.append_assoc, List.singleton_append, List.length_append,
        List.length_singleton, List.length_cons, Nat.cast_add, Nat.cast_one] at key ⊢
      exact key

/-- The value of `levenshteinDistance` against the standard distance: equal to
it, or equal to the length of the first string when the standard distance is
at least that length, or (third early return) the length of the second string
when that exceeds twice the length of the first. -/
theorem levenshteinDistance_spec (a b : QString) :
    levenshteinDistance a b = (standardLevenshtein a b : Int) ∨
      (levenshteinDistance a b = (a.length : Int) ∧ a.length ≤ standardLevenshtein a b) ∨
      (levenshteinDistance a b = (b.length : Int) ∧ 2 * a.length < b.length) := by
  unfold levenshteinDistance
  simp only
  split
  · rename_i h
    have ha : a = [] := List.length_eq_zero.1 (by exact_mod_cast h)
    subst ha
    left
    rw [standardLevenshtein_nil_left]
  split
  · rename_i h
    have hb : b = [] := List.length_eq_zero.1 (by exact_mod_cast h)
    subst hb
    left
    rw [standardLevenshtein_nil_right]
  split
  · rename_i h
    right; right
    refine ⟨rfl, ?_⟩
    rcases abs_cases ((a.length : Int) - (b.length : Int)) with ⟨h1, _⟩ | ⟨h1, _⟩ <;>
      rw [h1] at h <;> omega
  · rename_i h0 hb h
    have hb' : b ≠ [] := fun e => hb (by simp [e])
    have hinit : List.map Int.ofNat (List.range (b.length + 1)) = distanceRow [] [] b := by
      rw [distanceRow_nil]
      apply List.map_congr_left
      intro k _
      simp
    rw [hinit]
    have key := levLoop_spec b hb' a []
    simp only [List.nil_append, List.length_nil, Nat.cast_zero] at key
    rcases key with key | ⟨key, hge⟩
    · exact Or.inl key
    · exact Or.inr (Or.inl ⟨key, hge⟩)

/-! ## The score of each stage -/

theorem char_toLower_idem (c : Char) : c.toLower.toLower = c.toLower := by
  by_cases h : 65 ≤ c.toNat ∧ c.toNat ≤ 90
  · have hc : c = Char.ofNat c.toNat := (Char.ofNat_toNat c).symm
    obtain ⟨h1, h2⟩ := h
    generalize c.toNat = n at hc h1 h2
    subst hc
    interval_cases n <;> decide
  · have hid : c.toLower = c := by
      unfold Char.toLower
      simp only
      rw [if_neg h]
    rw [hid, hid]

theorem toLower_idem (q : QString) : toLower (toLower q) = toLower q := by
  unfold toLower
  rw [List.map_map]
  apply List.map_congr_left
  intro c _
  exact char_toLower_idem c

theorem startsWith_iff (s p : QString) : startsWith s p = true ↔ p <+: s := by
  unfold startsWith
  exact List.isPrefixOf_iff_prefix

theorem contains_iff (s p : QString) : contains s p = true ↔ p <:+: s := by
  refine ⟨infix_of_contains, ?_⟩
  induction s with
  | nil =>
    intro h
    have hp : p = [] := List.eq_nil_of_infix_nil h
    subst hp
    rfl
  | cons c s ih =>
    intro h
    simp only [contains, Bool.or_eq_true]
    rcases List.infix_cons_iff.1 h with h | h
    · exact Or.inl (List.isPrefixOf_iff_prefix.2 h)
    · exact Or.inr (ih h)

/-- The score that each stage returns. -/
theorem calculateScore_of_stage (q : QString) (e : FileEntry) :
    (stageOf q e = Stage.emptyQuery → calculateScore q e = 1) ∧
    (stageOf q e = Stage.exactMatch → calculateScore q e = 1000) ∧
    (stageOf q e = Stage.prefixMatch → calculateScore q e = 800) ∧
    (stageOf q e = Stage.substringMatch → calculateScore q e = 600) ∧
    (stageOf q e = Stage.initialismMatch → calculateScore q e = 550) ∧
    (stageOf q e = Stage.editDistanceMatch →
      calculateScore q e = max 1 (500 - levenshteinDistance q e.lowerName * 10) ∧
        levenshteinDistance q e.lowerName ≤ (q.length : Int) * 2) ∧
    (stageOf q e = Stage.subsequenceMatch →
      10 ≤ calculateScore q e ∧ calculateScore q e ≤ 99) ∧
    (stageOf q e = Stage.noMatch → calculateScore q e = 0) := by
  unfold stageOf calculateScore
  by_cases h0 : q.isEmpty = true
  · simp [h0]
  by_cases h1 : e.lowerName = q
  · simp [h0, h1]
  by_cases h2 : startsWith e.lowerName q = true
  · simp [h0, h1, h2]
  by_cases h3 : contains e.lowerName q = true
  · simp [h0, h1, h2, h3]
  by_cases h4 : (q.length ≤ 5 ∧ q.length ≥ 2) ∧
      ((words e.lowerName).length ≥ q.length ∧ initialsMatch q (words e.lowerName) = true)
  · simp only [h0, h1, h2, h3, h4, if_true, if_false]
    simp
  by_cases h5 : (q.length > 2 ∨ e.lowerName.length < 10) ∧
      levenshteinDistance q e.lowerName ≤ (q.length : Int) * 2
  · simp only [h0, h1, h2, h3, h4, h5, if_true, if_false]
    simp [h5.2]
  cases hs : subseqLoop e.lowerName q (-1) with
  | none =>
    simp only [if_neg h0, if_neg h1, if_neg h2, if_neg h3, if_neg h4, if_neg h5,
      reduceCtorEq, false_implies, true_and, true_implies, and_true]
  | some li =>
    cases q with
    | nil => simp at h0
    | cons c q =>
      have hb := subseqLoop_first_le hs
      have h1' := min_le_left (90 : Int) (li + 1 - indexOf e.lowerName c 0)
      have h2' : (1 : Int) ≤ min 90 (li + 1 - indexOf e.lowerName c 0) :=
        le_min (by omega) (by omega)
      simp only [if_neg h0, if_neg h1, if_neg h2, if_neg h3, if_neg h4, if_neg h5,
        List.headD_cons, reduceCtorEq, false_implies, true_and, true_implies]
      refine ⟨⟨?_, ?_⟩, trivial⟩ <;> omega

theorem stageOf_exactMatch_iff (q : QString) (e : FileEntry) :
    stageOf q e = Stage.exactMatch ↔ q ≠ [] ∧ e.lowerName = q := by
  unfold stageOf
  by_cases h0 : q.isEmpty = true
  · have hq : q = [] := List.isEmpty_iff.1 h0
    simp [hq]
  have hq : q ≠ [] := fun h => h0 (by simp [h])
  by_cases h1 : e.lowerName = q
  · simp [h0, h1, hq]
  simp only [if_neg h0, if_neg h1]
  constructor
  · intro h
    exfalso
    revert h
    split
    · simp
    split
    · simp
    split
    · simp
    split
    · simp
    split <;> simp
  · intro h
    exact absurd h.2 h1

theorem calculateScore_eq_1000_iff (q : QString) (e : FileEntry) (hq : q ≠ []) :
    calculateScore q e = 1000 ↔ e.lowerName = q := by
  have hst := calculateScore_of_stage q e
  constructor
  · intro h
    cases hs : stageOf q e with
    | exactMatch => exact ((stageOf_exactMatch_iff q e).1 hs).2
    | emptyQuery => have := hst.1 hs; omega
    | prefixMatch => have := hst.2.2.1 hs; omega
    | substringMatch => have := hst.2.2.2.1 hs; omega
    | initialismMatch => have := hst.2.2.2.2.1 hs; omega
    | editDistanceMatch =>
      have h1 := (hst.2.2.2.2.2.1 hs).1
      have h2 := levenshteinDistance_nonneg q e.lowerName
      rw [h1] at h
      have h3 : max 1 (500 - levenshteinDistance q e.lowerName * 10) ≤ 500 :=
        max_le (by omega) (by omega)
      omega
    | subsequenceMatch => have := hst.2.2.2.2.2.2.1 hs; omega
    | noMatch => have := hst.2.2.2.2.2.2.2 hs; omega
  · intro h
    exact hst.2.1 ((stageOf_exactMatch_iff q e).2 ⟨hq, h⟩)

theorem editDistance_score_bounds (q : QString) (e : FileEntry)
    (h : stageOf q e = Stage.editDistanceMatch) :
    1 ≤ calculateScore q e ∧ calculateScore q e ≤ 500 := by
  have h1 := ((calculateScore_of_stage q e).2.2.2.2.2.1 h).1
  have h2 := levenshteinDistance_nonneg q e.lowerName
  rw [h1]
  exact ⟨le_max_left _ _, max_le (by omega) (by omega)⟩

/-! ## The words of the initialism stage -/

theorem splitAux_eq_splitOnP (name acc : QString) (hacc : ∀ c ∈ acc, c ≠ ' ') :
    splitAux (name.map (fun c => if isAlnum c then c else ' ')) acc =
      (List.splitOnP.go (fun c => !isAlnum c) name acc).filter (fun w => !w.isEmpty) := by
  induction name generalizing acc with
  | nil =>
    cases acc <;> simp [splitAux, List.splitOnP.go]
  | cons c name ih =>
    by_cases hc : isAlnum c = true
    · have hne : c ≠ ' ' := by
        rintro rfl
        exact absurd hc (by decide)
      simp only [List.map_cons, hc, if_true, splitAux, if_neg hne, List.splitOnP.go,
        Bool.not_true, Bool.false_eq_true, if_false]
      exact ih (c :: acc) (by
        intro d hd
        rcases List.mem_cons.1 hd with rfl | hd
        · exact hne
        · exact hacc d hd)
    · have hc' : isAlnum c = false := by simpa using hc
      simp only [List.map_cons, hc', Bool.false_eq_true, if_false, splitAux, if_true,
        List.splitOnP.go, Bool.not_false]
      cases acc with
      | nil =>
        simp only [List.isEmpty_nil, if_true, List.reverse_nil, List.filter_cons,
          Bool.not_true, Bool.false_eq_true, if_false]
        exact ih [] (by simp)
      | cons a acc =>
        simp only [List.isEmpty_cons, Bool.false_eq_true, if_false, List.filter_cons]
        have hne : (a :: acc).reverse.isEmpty = false := by simp
        simp only [hne, Bool.not_false, if_true]
        rw [ih [] (by simp)]

/-- The words that the code obtains by replacing and splitting are the
non-empty maximal runs of ASCII letters and digits. -/
theorem words_eq_alnumRuns (name : QString) : words name = alnumRuns name := by
  unfold words alnumRuns List.splitOnP
  exact splitAux_eq_splitOnP name [] (by simp)

theorem initialsMatch_iff (q : QString) (ws : List QString) (hlen : q.length ≤ ws.length) :
    initialsMatch q ws = true ↔
      ∀ i (hi : i < q.length) (hw : i < ws.length), ws[i].head? = some q[i] := by
  induction q generalizing ws with
  | nil => simp [initialsMatch]
  | cons c q ih =>
    cases ws with
    | nil => simp at hlen
    | cons w ws =>
      have hlen' : q.length ≤ ws.length := by simpa using hlen
      cases w with
      | nil =>
        simp only [initialsMatch, Bool.false_eq_true, false_iff, not_forall]
        exact ⟨0, by simp, by simp, by simp⟩
      | cons d w =>
        simp only [initialsMatch]
        by_cases hd : d = c
        · subst hd
          simp only [ne_eq, not_true_eq_false, if_false]
          rw [ih ws hlen']
          constructor
          · intro h i hi hw
            cases i with
            | zero => simp
            | succ i =>
              simp only [List.getElem_cons_succ]
              exact h i (by simpa using hi) (by simpa using hw)
          · intro h i hi hw
            have := h (i + 1) (by simpa using hi) (by simpa using hw)
            simpa using this
        · simp only [ne_eq, hd, not_false_eq_true, if_true, Bool.false_eq_true, false_iff,
            not_forall]
          exact ⟨0, by simp, by simp, by simpa using hd⟩

/-! ## The stage of an entry, condition by condition -/

theorem prefix_of_eq_lowerName {q name : QString} (h : name = q) : q <+: name := by
  subst h
  exact List.prefix_refl _

/-- The stage in terms of the properties that the stages test. -/
theorem stageOf_eq (q : QString) (e : FileEntry) :
    stageOf q e =
      if q = [] then Stage.emptyQuery
      else if e.lowerName = q then Stage.exactMatch
      else if q <+: e.lowerName then Stage.prefixMatch
      else if q <:+: e.lowerName then Stage.substringMatch
      else if initialismApplies q e.lowerName then Stage.initialismMatch
      else if editStageAccepts q e.lowerName then Stage.editDistanceMatch
      else if q.Sublist e.lowerName then Stage.subsequenceMatch
      else Stage.noMatch := by
  unfold stageOf
  by_cases h0 : q = []
  · subst h0
    simp
  have h0' : ¬ q.isEmpty = true := fun h => h0 (List.isEmpty_iff.1 h)
  rw [if_neg h0, if_neg h0']
  by_cases h1 : e.lowerName = q
  · rw [if_pos h1, if_pos h1]
  rw [if_neg h1, if_neg h1]
  by_cases h2 : q <+: e.lowerName
  · rw [if_pos h2, if_pos ((startsWith_iff _ _).2 h2)]
  rw [if_neg h2, if_neg (fun h => h2 ((startsWith_iff _ _).1 h))]
  by_cases h3 : q <:+: e.lowerName
  · rw [if_pos h3, if_pos ((contains_iff _ _).2 h3)]
  rw [if_neg h3, if_neg (fun h => h3 ((contains_iff _ _).1 h))]
  by_cases h4 : initialismApplies q e.lowerName
  · rw [if_pos h4]
    unfold initialismApplies at h4
    rw [if_pos h4]
  rw [if_neg h4]
  unfold initialismApplies at h4
  rw [if_neg h4]
  by_cases h5 : editStageAccepts q e.lowerName
  · rw [if_pos h5]
    unfold editStageAccepts at h5
    rw [if_pos h5]
  rw [if_neg h5]
  unfold editStageAccepts at h5
  rw [if_neg h5]
  by_cases h6 : q.Sublist e.lowerName
  · rw [if_pos h6]
    obtain ⟨li, hli⟩ := (subseqLoop_isSome_iff e.lowerName q).2 h6
    rw [hli]
  · rw [if_neg h6]
    cases hli : subseqLoop e.lowerName q (-1) with
    | none => rfl
    | some li => exact absurd ((subseqLoop_isSome_iff e.lowerName q).1 ⟨li, hli⟩) h6

theorem stageOf_initialism_iff (q : QString) (e : FileEntry) :
    stageOf q e = Stage.initialismMatch ↔
      ¬ q <:+: e.lowerName ∧ initialismApplies q e.lowerName := by
  rw [stageOf_eq]
  constructor
  · intro h
    split at h
    · cases h
    split at h
    · cases h
    split at h
    · cases h
    split at h
    · cases h
    split at h
    · rename_i h3 h4
      exact ⟨h3, h4⟩
    split at h
    · cases h
    split at h <;> cases h
  · rintro ⟨h3, h4⟩
    have h0 : q ≠ [] := by
      rintro rfl
      have := h4.1.2
      simp at this
    have h2 : ¬ q <+: e.lowerName := fun h => h3 h.isInfix
    have h1 : ¬ e.lowerName = q := fun h => h2 (prefix_of_eq_lowerName h)
    rw [if_neg h0, if_neg h1, if_neg h2, if_neg h3, if_pos h4]

theorem stageOf_late (q : QString) (e : FileEntry) (hq : q ≠ [])
    (h3 : ¬ q <:+: e.lowerName) (h4 : ¬ initialismApplies q e.lowerName) :
    stageOf q e =
      if editStageAccepts q e.lowerName then Stage.editDistanceMatch
      else if q.Sublist e.lowerName then Stage.subsequenceMatch
      else Stage.noMatch := by
  have h2 : ¬ q <+: e.lowerName := fun h => h3 h.isInfix
  have h1 : ¬ e.lowerName = q := fun h => h2 (prefix_of_eq_lowerName h)
  rw [stageOf_eq, if_neg hq, if_neg h1, if_neg h2, if_neg h3, if_neg h4]

theorem calculateScore_eq_550_iff (q : QString) (e : FileEntry) :
    calculateScore q e = 550 ↔ stageOf q e = Stage.initialismMatch := by
  have hst := calculateScore_of_stage q e
  constructor
  · intro h
    cases hs : stageOf q e with
    | initialismMatch => rfl
    | emptyQuery => have := hst.1 hs; omega
    | exactMatch => have := hst.2.1 hs; omega
    | prefixMatch => have := hst.2.2.1 hs; omega
    | substringMatch => have := hst.2.2.2.1 hs; omega
    | editDistanceMatch => have := editDistance_score_bounds q e hs; omega
    | subsequenceMatch => have := hst.2.2.2.2.2.2.1 hs; omega
    | noMatch => have := hst.2.2.2.2.2.2.2 hs; omega
  · exact hst.2.2.2.2.1

/-- The score when the first four stages do not apply: the edit-distance
stage if it accepts, else the subsequence stage. -/
theorem calculateScore_late (q : QString) (e : FileEntry) (hq : q ≠ [])
    (h3 : ¬ q <:+: e.lowerName) (h4 : ¬ initialismApplies q e.lowerName) :
    calculateScore q e =
      if editStageAccepts q e.lowerName then
        max 1 (500 - levenshteinDistance q e.lowerName * 10)
      else subsequenceStage q e.lowerName := by
  have h0 : ¬ q.isEmpty = true := fun h => hq (List.isEmpty_iff.1 h)
  have h2 : ¬ startsWith e.lowerName q = true :=
    fun h => h3 ((startsWith_iff _ _).1 h).isInfix
  have h1 : ¬ e.lowerName = q := fun h =>
    h3 (prefix_of_eq_lowerName h).isInfix
  have h3' : ¬ contains e.lowerName q = true := fun h => h3 ((contains_iff _ _).1 h)
  unfold initialismApplies at h4
  unfold calculateScore
  rw [if_neg h0, if_neg h1, if_neg h2, if_neg h3', if_neg h4]
  by_cases h5 : editStageAccepts q e.lowerName
  · rw [if_pos h5]
    unfold editStageAccepts at h5
    rw [if_pos h5]
  · rw [if_neg h5]
    unfold editStageAccepts at h5
    rw [if_neg h5]
    rfl

/-! ## The positions matched by the subsequence stage -/

theorem subseqLoop_eq_matchPositions (name q : QString) (last : Int) :
    subseqLoop name q last =
      (matchPositions name q last).map (fun ps => ps.getLastD last) := by
  induction q generalizing last with
  | nil => rfl
  | cons c q ih =>
    simp only [subseqLoop, matchPositions]
    split
    · rfl
    · rw [ih, Option.map_map]
      congr 1
      funext ps
      simp only [Function.comp, List.getLastD_cons]

theorem matchPositions_head {name q : QString} {c : Char} {ps : List Int}
    (h : matchPositions name (c :: q) (-1) = some ps) :
    ∃ rest, ps = indexOf name c 0 :: rest := by
  simp only [matchPositions, Int.reduceNeg, neg_add_cancel] at h
  split at h
  · cases h
  · cases hm : matchPositions name q (indexOf name c 0) with
    | none => rw [hm] at h; cases h
    | some rest =>
      rw [hm] at h
      simp only [Option.map_some', Option.some.injEq] at h
      exact ⟨rest, h.symm⟩

/-- The score of the subsequence stage in terms of the matched positions:
the first is the first occurrence of the first query character, the loop
result is the last. -/
theorem subsequenceStage_eq (name q : QString) (hq : q ≠ []) (hs : q.Sublist name) :
    ∃ first rest, matchPositions name q (-1) = some (first :: rest) ∧
      0 ≤ first ∧ first ≤ (first :: rest).getLastD first ∧
      subsequenceStage q name =
        100 - min 90 ((first :: rest).getLastD first - first + 1) := by
  obtain ⟨c, q', rfl⟩ := List.exists_cons_of_ne_nil hq
  obtain ⟨li, hli⟩ := (subseqLoop_isSome_iff name (c :: q')).2 hs
  have hb := subseqLoop_first_le hli
  have hm := subseqLoop_eq_matchPositions name (c :: q') (-1)
  rw [hli] at hm
  cases hp : matchPositions name (c :: q') (-1) with
  | none => rw [hp] at hm; cases hm
  | some ps =>
    rw [hp] at hm
    simp only [Option.map_some', Option.some.injEq] at hm
    obtain ⟨rest, rfl⟩ := matchPositions_head hp
    have hlast : (indexOf name c 0 :: rest).getLastD (indexOf name c 0) = li := by
      rw [hm, List.getLastD_cons, List.getLastD_cons]
    refine ⟨indexOf name c 0, rest, rfl, hb.1, ?_, ?_⟩
    · rw [hlast]
      exact hb.2
    · rw [hlast]
      unfold subsequenceStage
      rw [hli]
      simp only [List.headD_cons]
      congr 2
      omega

/-! ## The standard distance: an upper bound -/

theorem standardLevenshtein_le_max (a b : QString) :
    standardLevenshtein a b ≤ max a.length b.length := by
  induction a generalizing b with
  | nil => rw [standardLevenshtein_nil_left]; exact le_max_right _ _
  | cons x a ih =>
    cases b with
    | nil => rw [standardLevenshtein_nil_right]; exact le_max_left _ _
    | cons y b =>
      rw [standardLevenshtein_cons_cons]
      have h := ih b
      have hc : (if x = y then 0 else 1) ≤ 1 := by split <;> omega
      simp only [List.length_cons]
      omega

theorem levenshteinDistance_of_long (a b : QString) (h : 2 * a.length < b.length) :
    levenshteinDistance a b = (b.length : Int) := by
  unfold levenshteinDistance
  simp only
  split
  · rfl
  split
  · rename_i hb
    have : b.length = 0 := by exact_mod_cast hb
    omega
  split
  · rfl
  · rename_i hn
    exfalso
    apply hn
    rw [abs_sub_comm, abs_of_nonneg (by omega)]
    omega

/-- The acceptance test of the edit-distance stage is a test on the lengths. -/
theorem levenshteinDistance_le_iff (a b : QString) :
    levenshteinDistance a b ≤ 2 * (a.length : Int) ↔ b.length ≤ 2 * a.length := by
  constructor
  · intro h
    by_contra hlen
    rw [levenshteinDistance_of_long a b (by omega)] at h
    omega
  · intro hlen
    rcases levenshteinDistance_spec a b with h | ⟨h, _⟩ | ⟨_, h⟩
    · rw [h]
      have := standardLevenshtein_le_max a b
      omega
    · rw [h]
      omega
    · omega

/-! ## The last segment of a path -/

theorem takeWhile_append_slash (xs ys : QString) :
    (xs ++ '/' :: ys).takeWhile (fun c => decide (c ≠ '/')) =
      xs.takeWhile (fun c => decide (c ≠ '/')) := by
  induction xs with
  | nil => simp
  | cons x xs ih =>
    by_cases hx : x = '/'
    · simp [hx]
    · simp only [List.cons_append, List.takeWhile_cons, ne_eq, hx, not_false_eq_true,
        decide_True, if_true, List.cons.injEq, true_and]
      exact ih

theorem fileNameAux_reverse (s acc : QString) (hacc : ∀ c ∈ acc, c ≠ '/') :
    (fileNameAux s acc).reverse =
      (s.reverse ++ acc).takeWhile (fun c => decide (c ≠ '/')) := by
  induction s generalizing acc with
  | nil =>
    simp only [fileNameAux, List.reverse_reverse, List.reverse_nil, List.nil_append]
    exact (List.takeWhile_eq_self_iff.2 (fun c hc => by simpa using hacc c hc)).symm
  | cons c s ih =>
    simp only [fileNameAux]
    split
    · rename_i hc
      subst hc
      rw [ih [] (by simp), List.append_nil, List.reverse_cons, List.append_assoc,
        List.singleton_append, takeWhile_append_slash]
    · rename_i hc
      rw [ih (c :: acc) (by
        intro d hd
        rcases List.mem_cons.1 hd with rfl | hd
        · exact hc
        · exact hacc d hd)]
      simp

/-- The model of `QFileInfo::fileName` returns what follows the last `/`. -/
theorem fileName_eq_lastSegment (path : QString) : fileName path = lastSegment path := by
  unfold fileName lastSegment
  have h := fileNameAux_reverse path [] (by simp)
  rw [List.append_nil] at h
  rw [← h, List.reverse_reverse]

/-! ## The early-abandon test fires on the last row only -/

/-- The first entry that the inner loop computes is at most `prev[0] + 1`. -/
theorem levRow_head (c y : Char) (s2 : QString) (p0 p1 cj : Int) (ps : List Int) :
    ∃ v rest, levRow c (y :: s2) (p0 :: p1 :: ps) cj = v :: rest ∧ v ≤ p0 + 1 := by
  refine ⟨_, _, rfl, ?_⟩
  have hc : (if c = y then (0 : Int) else 1) ≤ 1 := by split <;> omega
  have := min_le_right (min (cj + 1) (p1 + 1)) (p0 + if c = y then 0 else 1)
  omega

theorem levRow_all_false (c y : Char) (s2 : QString) (p0 p1 cj threshold : Int)
    (ps : List Int) (h : p0 + 1 < threshold) :
    (levRow c (y :: s2) (p0 :: p1 :: ps) cj).all (fun v => !decide (v < threshold)) = false := by
  obtain ⟨v, rest, hrow, hv⟩ := levRow_head c y s2 p0 p1 cj ps
  rw [hrow, List.all_cons]
  have : decide (v < threshold) = true := decide_eq_true (by omega)
  simp [this]

/-- With the threshold equal to the length of the first string, the loop
with the test on every row and the loop with the test on the last row agree. -/
theorem levLoop_eq_lastRow (y : Char) (s2 s1 : QString) (i p1 : Int) (ps : List Int) :
    levLoop (i + s1.length) (y :: s2) s1 i (i :: p1 :: ps) =
      levLoopLastRow (i + s1.length) (y :: s2) s1 i (i :: p1 :: ps) := by
  induction s1 generalizing i p1 ps with
  | nil => rfl
  | cons c rest ih =>
    obtain ⟨v, tl, hrow, _⟩ := levRow_head c y s2 i p1 (i + 1) ps
    have hth : i + ((c :: rest).length : Int) = (i + 1) + (rest.length : Int) := by
      simp only [List.length_cons, Nat.cast_add, Nat.cast_one]
      omega
    rw [levLoop, levLoopLastRow]
    cases rest with
    | nil =>
      simp only [List.isEmpty_nil, true_and]
      split
      · rfl
      · rfl
    | cons c' rest' =>
      have hall := levRow_all_false c y s2 i p1 (i + 1)
        (i + ((c :: c' :: rest').length : Int)) ps (by
          simp only [List.length_cons, Nat.cast_add, Nat.cast_one]
          omega)
      rw [hall]
      simp only [Bool.false_eq_true, if_false, List.isEmpty_cons, false_and]
      rw [hrow, hth]
      exact ih (i + 1) v tl

theorem initial_row (n : Nat) :
    (List.range (n + 1 + 1)).map Int.ofNat =
      (0 : Int) :: (1 : Int) :: ((List.range n).map (fun k => Int.ofNat (k + 2))) := by
  rw [List.range_succ_eq_map, List.range_succ_eq_map]
  simp only [List.map_cons, List.map_map]
  refine congrArg₂ _ rfl (congrArg₂ _ rfl ?_)
  apply List.map_congr_left
  intro k _
  rfl

/-- The function with the early-abandon test on the last row only returns
what `levenshteinDistance` returns. -/
theorem levenshteinDistance_eq_lastRow (a b : QString) :
    levenshteinDistance a b = levenshteinDistanceLastRow a b := by
  unfold levenshteinDistance levenshteinDistanceLastRow
  simp only
  split
  · rfl
  split
  · rfl
  split
  · rfl
  · rename_i h0 hb _
    cases b with
    | nil => exact absurd rfl hb
    | cons y s2 =>
      rw [List.length_cons, initial_row]
      have := levLoop_eq_lastRow y s2 a 0 1 ((List.range s2.length).map (fun k => Int.ofNat (k + 2)))
      simp only [zero_add] at this
      exact this

/-- The rows of the table: row `k` after index `i` starts with `i + k + 1`,
and its next entry is at most that. -/
theorem levRowsFrom_spec (y : Char) (s2 s1 : QString) (i p1 : Int) (ps : List Int)
    (k : Nat) (hk : k < s1.length) :
    ∃ v rest, (levRowsFrom (y :: s2) s1 i (i :: p1 :: ps))[k]? =
        some ((i + k + 1) :: v :: rest) ∧ v ≤ i + k + 1 := by
  induction s1 generalizing i p1 ps k with
  | nil => simp at hk
  | cons c s1 ih =>
    obtain ⟨v, tl, hrow, hv⟩ := levRow_head c y s2 i p1 (i + 1) ps
    rw [levRowsFrom, hrow]
    cases k with
    | zero =>
      refine ⟨v, tl, ?_, by simpa using hv⟩
      simp
    | succ k =>
      obtain ⟨v', tl', h1, h2⟩ := ih (i + 1) v tl k (by simpa using hk)
      refine ⟨v', tl', ?_, ?_⟩
      · rw [List.getElem?_cons_succ, h1]
        congr 2
        push_cast
        omega
      · push_cast
        omega

theorem levRows_length (a b : QString) : (levRows a b).length = a.length := by
  unfold levRows
  generalize (List.range (b.length + 1)).map Int.ofNat = prev
  generalize (0 : Int) = i
  induction a generalizing i prev with
  | nil => rfl
  | cons c a ih => simp [levRowsFrom, ih]

/-- In every row but the last, the entry `curr[1]` is at most `i + 1`, below
the threshold, so the early-abandon test fails. -/
theorem levRows_spec (a b : QString) (hb : b ≠ []) (i : Nat) (hi : i + 1 < a.length) :
    ∃ v rest, (levRows a b)[i]? = some (((i : Int) + 1) :: v :: rest) ∧
      v ≤ (i : Int) + 1 ∧ (i : Int) + 1 < (a.length : Int) ∧
      (v :: rest).all (fun w => !decide (w < (a.length : Int))) = false := by
  obtain ⟨y, s2, rfl⟩ := List.exists_cons_of_ne_nil hb
  unfold levRows
  rw [List.length_cons, initial_row]
  obtain ⟨v, rest, h1, h2⟩ := levRowsFrom_spec y s2 a 0 1
    ((List.range s2.length).map (fun k => Int.ofNat (k + 2))) i (by omega)
  simp only [zero_add] at h1 h2
  refine ⟨v, rest, h1, h2, by exact_mod_cast hi, ?_⟩
  rw [List.all_cons]
  have : decide (v < (a.length : Int)) = true := decide_eq_true (by omega)
  simp [this]

/-! ## Two batch orders -/

theorem perm_eq_of_map_eq {α β : Type} (f : α → β) :
    ∀ (l1 l2 : List α), l1.Perm l2 → l1.map f = l2.map f → (l1.map f).Nodup → l1 = l2 := by
  intro l1
  induction l1 with
  | nil =>
    intro l2 hp _ _
    exact hp.symm.eq_nil.symm
  | cons a t ih =>
    intro l2 hp hm hnd
    cases l2 with
    | nil => exact absurd hp.eq_nil (by simp)
    | cons b t2 =>
      simp only [List.map_cons, List.cons.injEq] at hm
      have hab : a = b := by
        have ha : a ∈ b :: t2 := hp.subset (List.mem_cons_self _ _)
        rcases List.mem_cons.1 ha with h | h
        · exact h
        · exfalso
          have hfa : f a ∈ t2.map f := List.mem_map_of_mem f h
          rw [← hm.2] at hfa
          exact (List.nodup_cons.1 hnd).1 hfa
      subst hab
      rw [ih t2 (List.Perm.cons_inv hp) hm.2 (List.nodup_cons.1 hnd).2]

/-- Whatever the batch order, the sorted `scoredStrings` hold the same
matches, and the same scores position by position. -/
theorem rankedMatches_scores {sort : List ScoredMatch → List ScoredMatch}
    {sched1 sched2 : List (List ScoredMatch) → List (List ScoredMatch)}
    (hsort : IsStdSort sort) (hs1 : IsSchedule sched1) (hs2 : IsSchedule sched2)
    (entries : List FileEntry) (ql : QString) :
    (rankedMatches sort sched1 entries ql).Perm (rankedMatches sort sched2 entries ql) ∧
      (rankedMatches sort sched1 entries ql).map Prod.snd =
        (rankedMatches sort sched2 entries ql).map Prod.snd := by
  have hp : (rankedMatches sort sched1 entries ql).Perm (rankedMatches sort sched2 entries ql) :=
    (rankedMatches_perm hsort hs1 entries ql).trans (rankedMatches_perm hsort hs2 entries ql).symm
  refine ⟨hp, ?_⟩
  have hsorted : ∀ sched : List (List ScoredMatch) → List (List ScoredMatch),
      ((rankedMatches sort sched entries ql).map Prod.snd).Sorted (fun a b : Int => a ≥ b) := by
    intro sched
    unfold List.Sorted
    rw [List.pairwise_map]
    exact (rankedMatches_sorted hsort sched entries ql).imp (fun h => not_lt.1 h)
  exact List.eq_of_perm_of_sorted (hp.map Prod.snd) (hsorted sched1) (hsorted sched2)

/-- When no two matches have the same score, the batch order does not matter. -/
theorem missResults_distinct_scores {sort : List ScoredMatch → List ScoredMatch}
    {sched1 sched2 : List (List ScoredMatch) → List (List ScoredMatch)}
    (hsort : IsStdSort sort) (hs1 : IsSchedule sched1) (hs2 : IsSchedule sched2)
    (entries : List FileEntry) (ql : QString) (k : Int)
    (hnd : ((scoreFileBatch ql entries).map Prod.snd).Nodup) :
    missResults sort sched1 entries ql k = missResults sort sched2 entries ql k := by
  have h := rankedMatches_scores hsort hs1 hs2 entries ql
  have hnd1 : ((rankedMatches sort sched1 entries ql).map Prod.snd).Nodup :=
    ((rankedMatches_perm hsort hs1 entries ql).map Prod.snd).nodup_iff.2 hnd
  unfold missResults
  rw [perm_eq_of_map_eq Prod.snd _ _ h.1 h.2 hnd1]

theorem stageOf_subsequence_iff (q : QString) (e : FileEntry) :
    stageOf q e = Stage.subsequenceMatch ↔
      q ≠ [] ∧ ¬ q <:+: e.lowerName ∧ ¬ initialismApplies q e.lowerName ∧
        ¬ editStageAccepts q e.lowerName ∧ q.Sublist e.lowerName := by
  rw [stageOf_eq]
  constructor
  · intro h
    split at h
    · cases h
    split at h
    · cases h
    split at h
    · cases h
    split at h
    · cases h
    split at h
    · cases h
    split at h
    · cases h
    split at h
    · rename_i h0 _ _ h3 h4 h5 h6
      exact ⟨h0, h3, h4, h5, h6⟩
    · cases h
  · rintro ⟨h0, h3, h4, h5, h6⟩
    have h2 : ¬ q <+: e.lowerName := fun h => h3 h.isInfix
    have h1 : ¬ e.lowerName = q := fun h => h2 (prefix_of_eq_lowerName h)
    rw [if_neg h0, if_neg h1, if_neg h2, if_neg h3, if_neg h4, if_neg h5, if_pos h6]

theorem subsequenceStage_bounds (q name : QString) (hq : q ≠ []) (hs : q.Sublist name) :
    10 ≤ subsequenceStage q name ∧ subsequenceStage q name ≤ 99 := by
  obtain ⟨first, rest, _, _, h2, h3⟩ := subsequenceStage_eq name q hq hs
  rw [h3]
  have h4 := min_le_left (90 : Int) ((first :: rest).getLastD first - first + 1)
  have h5 : (1 : Int) ≤ min 90 ((first :: rest).getLastD first - first + 1) :=
    le_min (by omega) (by omega)
  omega

theorem indexOf_getElem_of_nodup (l : List QString) (hnd : l.Nodup) (i : Nat)
    (hi : i < l.length) : List.indexOf l[i] l = i := by
  have hsplit : l = l.take i ++ l[i] :: l.drop (i + 1) := by
    rw [← List.drop_eq_getElem_cons hi, List.take_append_drop]
  have hnot : l[i] ∉ l.take i := by
    intro hmem
    rw [hsplit] at hnd
    exact (List.nodup_append.1 hnd).2.2 hmem (List.mem_cons_self _ _)
  have := indexOf_append_self l[i] (l.take i) (l.drop (i + 1)) hnot
  rw [← hsplit] at this
  rw [this, List.length_take]
  omega

/-- The loop with the test on the last row reads its result off the last of
the rows: the threshold if the test succeeds there, else the last entry. -/
theorem levLoopLastRow_eq_rows (threshold : Int) (s2 : QString) (c : Char) (s1 : QString)
    (i : Int) (prev : List Int) :
    ∃ row, (levRowsFrom s2 (c :: s1) i prev).getLast? = some row ∧
      levLoopLastRow threshold s2 (c :: s1) i prev =
        if row.tail.all (fun v => !decide (v < threshold)) = true then threshold
        else row.getD s2.length 0 := by
  induction s1 generalizing c i prev with
  | nil =>
    refine ⟨(i + 1) :: levRow c s2 prev (i + 1), rfl, ?_⟩
    rw [levLoopLastRow]
    simp only [List.isEmpty_nil, true_and, List.tail_cons]
    split
    · rfl
    · rfl
  | cons c' rest ih =>
    obtain ⟨row, h1, h2⟩ := ih c' (i + 1) ((i + 1) :: levRow c s2 prev (i + 1))
    refine ⟨row, ?_, ?_⟩
    · rw [levRowsFrom]
      rw [levRowsFrom] at h1 ⊢
      rw [List.getLast?_cons_cons]
      exact h1
    · rw [levLoopLastRow]
      simp only [List.isEmpty_cons, Bool.false_eq_true, false_and, if_false]
      exact h2

/-- In the table branch, `levenshteinDistance` is read off the last row. -/
theorem levenshteinDistance_eq_rows (a b : QString) (ha : a ≠ []) (hb : b ≠ [])
    (h : |(a.length : Int) - (b.length : Int)| ≤ (a.length : Int)) :
    ∃ row, (levRows a b).getLast? = some row ∧
      levenshteinDistance a b =
        if row.tail.all (fun v => !decide (v < (a.length : Int))) = true then (a.length : Int)
        else row.getD b.length 0 := by
  obtain ⟨c, s1, rfl⟩ := List.exists_cons_of_ne_nil ha
  have ha' : ¬ (((c :: s1).length : Nat) : Int) = 0 := by
    simp only [List.length_cons]
    omega
  have hb' : ¬ ((b.length : Nat) : Int) = 0 := fun e =>
    hb (List.length_eq_zero.1 (by exact_mod_cast e))
  rw [levenshteinDistance_eq_lastRow]
  unfold levenshteinDistanceLastRow levRows
  simp only [if_neg ha', if_neg hb', if_neg (not_lt.2 h)]
  exact levLoopLastRow_eq_rows _ b c s1 0 _

/-! ## The matched positions are not contiguous after the substring stage -/

theorem indexOf_drop {name : QString} {c : Char} {frm : Int} (hfrm : 0 ≤ frm)
    (h : indexOf name c frm ≠ -1) :
    frm ≤ indexOf name c frm ∧
      ∃ post, name.drop (indexOf name c frm).toNat = c :: post := by
  unfold indexOf at h ⊢
  have hc : c ∈ name.drop frm.toNat := by
    by_contra hc
    exact h ((indexOfAux_eq_neg_one hfrm).2 hc)
  obtain ⟨pre, post, h1, _, h3⟩ := indexOfAux_found frm hc
  rw [h3]
  refine ⟨by omega, post, ?_⟩
  have e : (frm + (pre.length : Int)).toNat = frm.toNat + pre.length := by omega
  rw [e, ← List.drop_drop, h1, List.drop_left]

theorem matchPositions_span (name : QString) (q : QString) (c : Char) (li : Int)
    (first : Int) (rest : List Int) (hli : -1 ≤ li)
    (h : matchPositions name (c :: q) li = some (first :: rest)) :
    li + 1 ≤ first ∧ (q.length : Int) ≤ (first :: rest).getLastD first - first ∧
      ((first :: rest).getLastD first - first = (q.length : Int) →
        (c :: q) <+: name.drop first.toNat) := by
  induction q generalizing c li first rest with
  | nil =>
    simp only [matchPositions] at h
    split at h
    · cases h
    · rename_i hne
      simp only [Option.map_some', Option.some.injEq, List.cons.injEq] at h
      obtain ⟨h1, h2⟩ := h
      subst h1 h2
      obtain ⟨hb, post, hp⟩ := indexOf_drop (by omega) hne
      refine ⟨hb, by simp, fun _ => ?_⟩
      rw [hp]
      exact ⟨post, rfl⟩
  | cons c2 q ih =>
    rw [matchPositions] at h
    split at h
    · cases h
    · rename_i hne
      obtain ⟨hb, post, hp⟩ := indexOf_drop (by omega : 0 ≤ li + 1) hne
      cases hm : matchPositions name (c2 :: q) (indexOf name c (li + 1)) with
      | none => rw [hm] at h; cases h
      | some ps =>
        rw [hm] at h
        simp only [Option.map_some', Option.some.injEq, List.cons.injEq] at h
        obtain ⟨h1, h2⟩ := h
        subst h2
        rw [h1] at hm hb hp
        cases ps with
        | nil =>
          rw [matchPositions] at hm
          split at hm
          · cases hm
          · cases hq : matchPositions name q (indexOf name c2 (first + 1)) with
            | none => rw [hq] at hm; cases hm
            | some ps => rw [hq] at hm; cases hm
        | cons second rest2 =>
          obtain ⟨i1, i2, i3⟩ := ih c2 first second rest2 (by omega) hm
          rw [List.getLastD_cons] at i2 i3
          rw [List.getLastD_cons, List.getLastD_cons]
          simp only [List.length_cons, Nat.cast_add, Nat.cast_one]
          refine ⟨hb, by omega, fun heq => ?_⟩
          have hs : second = first + 1 := by omega
          have hpre := i3 (by omega)
          rw [hp]
          have e : second.toNat = first.toNat + 1 := by omega
          rw [e, ← List.drop_drop, hp] at hpre
          simp only [List.drop_succ_cons, List.drop_zero] at hpre
          exact (List.prefix_cons_inj c).2 hpre

/-- In the subsequence stage the matched window is longer than the query. -/
theorem subsequenceStage_window (q : QString) (e : FileEntry)
    (h : stageOf q e = Stage.subsequenceMatch) :
    ∃ first rest, matchPositions e.lowerName q (-1) = some (first :: rest) ∧
      (q.length : Int) + 1 ≤ (first :: rest).getLastD first - first + 1 ∧
      calculateScore q e = 100 - min 90 ((first :: rest).getLastD first - first + 1) := by
  obtain ⟨h0, h3, h4, h5, h6⟩ := (stageOf_subsequence_iff q e).1 h
  obtain ⟨first, rest, hp, hf, _, hs⟩ := subsequenceStage_eq e.lowerName q h0 h6
  refine ⟨first, rest, hp, ?_, ?_⟩
  · obtain ⟨c, q2, rfl⟩ := List.exists_cons_of_ne_nil h0
    obtain ⟨_, j2, j3⟩ := matchPositions_span e.lowerName q2 c (-1) first rest (le_refl _) hp
    simp only [List.length_cons, Nat.cast_add, Nat.cast_one]
    by_contra hcon
    have hpre := j3 (by omega)
    exact h3 (hpre.isInfix.trans (List.drop_suffix _ _).isInfix)
  · rw [calculateScore_late q e h0 h3 h4, if_neg h5, hs]

/-! # The claims -/

/-! ## C1: the end-to-end example -/

/-- C1, as amended: after `SetCollection` of the four example paths,
`Search("test", 10)` returns three paths, whatever `std::sort` does with equal
scores: `/a/test.cpp` and `/a/testing.cpp` (score 800 each), in either order,
then `/a/other.md`, which the edit-distance stage scores 440.  Only
`/a/readme.txt` scores 0.  With a sort that keeps equal scores in input order
the list is `test.cpp, testing.cpp, other.md`. -/
theorem C1_demo_search_amended (sort : List ScoredMatch → List ScoredMatch)
    (sched : List (List ScoredMatch) → List (List ScoredMatch))
    (hsort : IsStdSort sort) (hsched : IsSchedule sched) :
    ((search sort sched (setCollection fresh demoCollection) "test".toList 10).1 =
        ["/a/test.cpp".toList, "/a/testing.cpp".toList, "/a/other.md".toList] ∨
      (search sort sched (setCollection fresh demoCollection) "test".toList 10).1 =
        ["/a/testing.cpp".toList, "/a/test.cpp".toList, "/a/other.md".toList]) ∧
    (search stableSort sched (setCollection fresh demoCollection) "test".toList 10).1 =
        ["/a/test.cpp".toList, "/a/testing.cpp".toList, "/a/other.md".toList] ∧
    (setCollection fresh demoCollection).m_entries.map (calculateScore "test".toList) =
        [0, 800, 800, 440] := by
  refine ⟨demo_search hsort hsched, ?_, by decide⟩
  rw [search_miss stableSort_isStdSort hsched _ _ _ (by decide) (by decide)]
  have hb : (mkBatches (setCollection fresh demoCollection).m_entries
      (setCollection fresh demoCollection).m_entries.length 0).map
        (scoreFileBatch (toLower "test".toList)) =
      [[("/a/test.cpp".toList, 800), ("/a/testing.cpp".toList, 800),
        ("/a/other.md".toList, 440)]] := by
    decide
  simp only [missResults, rankedMatches]
  rw [hb, List.perm_singleton.1 (hsched _)]
  decide

/-- C1 at a concrete library: the stable sort and batches in index order. -/
theorem C1_demo_search_amended_witness :
    ((search stableSort inOrder (setCollection fresh demoCollection) "test".toList 10).1 =
        ["/a/test.cpp".toList, "/a/testing.cpp".toList, "/a/other.md".toList] ∨
      (search stableSort inOrder (setCollection fresh demoCollection) "test".toList 10).1 =
        ["/a/testing.cpp".toList, "/a/test.cpp".toList, "/a/other.md".toList]) ∧
    (search stableSort inOrder (setCollection fresh demoCollection) "test".toList 10).1 =
        ["/a/test.cpp".toList, "/a/testing.cpp".toList, "/a/other.md".toList] ∧
    (setCollection fresh demoCollection).m_entries.map (calculateScore "test".toList) =
        [0, 800, 800, 440] :=
  C1_demo_search_amended stableSort inOrder stableSort_isStdSort inOrder_isSchedule

/-- C1 as stated fails: no `std::sort` and no batch order make
`Search("test", 10)` return `/a/test.cpp, /a/testing.cpp` only, because
`/a/other.md` scores 440, not 0. -/
theorem C1_demo_search_counterexample :
    (¬ ∃ (sort : List ScoredMatch → List ScoredMatch)
        (sched : List (List ScoredMatch) → List (List ScoredMatch)),
        IsStdSort sort ∧ IsSchedule sched ∧
        (search sort sched (setCollection fresh demoCollection) "test".toList 10).1 =
          ["/a/test.cpp".toList, "/a/testing.cpp".toList]) ∧
    calculateScore "test".toList (mkEntry "/a/other.md".toList) = 440 := by
  refine ⟨?_, by decide⟩
  rintro ⟨sort, sched, hsort, hsched, h⟩
  rcases demo_search hsort hsched with h' | h' <;> rw [h'] at h <;> exact absurd h (by decide)

/-! ## C2: when the score is 0 -/

/-- C2, as amended: for a non-empty query the score is 0 if and only if the
query is not a subsequence of the entry's lowercased name and the
edit-distance stage does not accept the pair (the stage is not attempted, or
the bounded distance exceeds twice the query length). -/
theorem C2_score_zero_iff_amended (q : QString) (e : FileEntry) (hq : q ≠ []) :
    calculateScore q e = 0 ↔
      ¬ q.Sublist e.lowerName ∧
        ¬ ((q.length > 2 ∨ e.lowerName.length < 10) ∧
          levenshteinDistance q e.lowerName ≤ (q.length : Int) * 2) :=
  calculateScore_eq_zero_iff q e hq

/-- C2 at the query `test` and the path `/a/readme.txt`. -/
theorem C2_score_zero_iff_amended_witness :
    "test".toList ≠ [] ∧
    (calculateScore "test".toList (mkEntry "/a/readme.txt".toList) = 0 ↔
      ¬ "test".toList.Sublist (mkEntry "/a/readme.txt".toList).lowerName ∧
        ¬ (("test".toList.length > 2 ∨ (mkEntry "/a/readme.txt".toList).lowerName.length < 10) ∧
          levenshteinDistance "test".toList (mkEntry "/a/readme.txt".toList).lowerName ≤
            ("test".toList.length : Int) * 2)) :=
  ⟨by decide, C2_score_zero_iff_amended _ _ (by decide)⟩

/-- C2 as stated fails: the lowercase query `abc` is not a subsequence of the
name `xyz`, yet the edit-distance stage gives the entry the score 470. -/
theorem C2_score_zero_iff_counterexample :
    ¬ (calculateScore "abc".toList (mkEntry "/a/xyz".toList) = 0 ↔
        ¬ "abc".toList.Sublist (mkEntry "/a/xyz".toList).lowerName) ∧
    calculateScore "abc".toList (mkEntry "/a/xyz".toList) = 470 ∧
    toLower "abc".toList = "abc".toList := by
  decide

/-! ## C3: cache transparency -/

/-- C3, the code at the failing input: after `SetCollection` of the four
example paths and `Search("test", 1)`, the cache binds `test` to the one path
that call returned, so `Search("test", 10)` returns that path alone; after
`SetCollection` of the same paths again it returns three paths. -/
theorem C3_cache_transparency_fails :
    Reachable stableSort
      (search stableSort inOrder (setCollection fresh demoCollection) "test".toList 1).2 ∧
    (search stableSort inOrder
      (search stableSort inOrder (setCollection fresh demoCollection) "test".toList 1).2
      "test".toList 10).1 = ["/a/test.cpp".toList] ∧
    (search stableSort inOrder
      (setCollection
        (search stableSort inOrder (setCollection fresh demoCollection) "test".toList 1).2
        demoCollection)
      "test".toList 10).1 =
        ["/a/test.cpp".toList, "/a/testing.cpp".toList, "/a/other.md".toList] :=
  ⟨Reachable.search inOrder _ _ inOrder_isSchedule
      (Reachable.setCollection demoCollection Reachable.fresh),
    by decide, by decide⟩

/-! ## C4: searching twice -/

/-- C4, as amended: calling `search` twice in a row with the same query and
`k ≥ 0` returns the same list both times when the two calls see the batch
results appended in the same order; and for any two batch orders when the
Index has at most 1000 entries, or the cache is below its capacity, or the
query is cached or empty. -/
theorem C4_idempotence_amended (sort : List ScoredMatch → List ScoredMatch)
    (sched1 sched2 : List (List ScoredMatch) → List (List ScoredMatch))
    (hsort : IsStdSort sort) (hs1 : IsSchedule sched1) (hs2 : IsSchedule sched2)
    (self : Engine) (q : QString) (k : Nat)
    (h : sched1 = sched2 ∨ self.m_entries.length ≤ 1000 ∨ self.m_queryCache.length < 1000 ∨
      cacheValue self.m_queryCache (toLower q) ≠ none ∨ q = []) :
    (search sort sched2 (search sort sched1 self q k).2 q k).1 =
      (search sort sched1 self q k).1 := by
  by_cases hq : q = []
  · subst hq
    rw [search_browse, search_browse]
  cases hc : cacheValue self.m_queryCache (toLower q) with
  | some cached =>
    rw [search_hit sort sched1 self q k cached hq hc, search_hit sort sched2 self q k cached hq hc]
  | none =>
    rw [search_miss hsort hs1 self q k hq hc]
    by_cases hins : missResults sort sched1 self.m_entries (toLower q) k ≠ [] ∧
        self.m_queryCache.length < 1000
    · rw [if_pos hins]
      rw [search_hit sort sched2 _ q k _ hq (cacheValue_cacheInsert_self _ _ _), mid0_nat]
      exact List.take_of_length_le (missResults_length_le _ _ _ _ _)
    · rw [if_neg hins, search_miss hsort hs2 self q k hq hc]
      simp only
      by_cases hnil : missResults sort sched1 self.m_entries (toLower q) k = []
      · rw [hnil]
        exact (missResults_eq_nil_iff hsort hs2 _ _ _).2
          ((missResults_eq_nil_iff hsort hs1 _ _ _).1 hnil)
      · have hfull : ¬ self.m_queryCache.length < 1000 := fun hlt => hins ⟨hnil, hlt⟩
        rcases h with h | h | h | h | h
        · rw [h]
        · exact missResults_one_batch sort hs2 hs1 _ h _ _
        · exact absurd h hfull
        · exact absurd hc h
        · exact absurd h hq

/-- C4 at the example collection with two different batch orders. -/
theorem C4_idempotence_amended_witness :
    (search stableSort lastFirst
        (search stableSort inOrder (setCollection fresh demoCollection) "test".toList
          ((10 : Nat) : Int)).2 "test".toList ((10 : Nat) : Int)).1 =
      (search stableSort inOrder (setCollection fresh demoCollection) "test".toList
        ((10 : Nat) : Int)).1 :=
  C4_idempotence_amended stableSort inOrder lastFirst stableSort_isStdSort inOrder_isSchedule
    lastFirst_isSchedule (setCollection fresh demoCollection) "test".toList 10
    (Or.inr (Or.inl (by decide)))

/-- C4 as stated fails: in the reachable state `fullState` (1001 entries, the
cache full after 1000 searches) the query `z` is not cached and cannot be
stored; `Search("z", 1)` with the batches appending in index order returns
`/a/z`, and the same call again, with the second batch appending first,
returns `/b/z` (stable `std::sort`). -/
theorem C4_idempotence_counterexample :
    Reachable stableSort fullState ∧ IsStdSort stableSort ∧
    IsSchedule inOrder ∧ IsSchedule lastFirst ∧
    (search stableSort inOrder fullState "z".toList 1).1 = ["/a/z".toList] ∧
    (search stableSort lastFirst (search stableSort inOrder fullState "z".toList 1).2
      "z".toList 1).1 = ["/b/z".toList] := by
  refine ⟨fullState_reachable, stableSort_isStdSort, inOrder_isSchedule, lastFirst_isSchedule,
    ?_, ?_⟩
  · rw [fullState_search inOrder_isSchedule]
    obtain ⟨tl, h⟩ := big_missResults_inOrder 0
    dsimp only
    exact big_missResults_one h
  · rw [fullState_search inOrder_isSchedule]
    dsimp only
    rw [fullState_search lastFirst_isSchedule]
    obtain ⟨tl, h⟩ := big_missResults_lastFirst 0
    dsimp only
    exact big_missResults_one h

/-! ## C5: the truncation law -/

/-- C5, as amended: for every engine state, query and `k ≥ 0`, the list
`search` returns for `k` is a prefix of the list it returns for `k + 1` in the
same state when both calls see the batch results appended in the same order;
that is so for any two batch orders when the Index has at most 1000 entries
(one batch). -/
theorem C5_truncation_amended (sort : List ScoredMatch → List ScoredMatch)
    (sched : List (List ScoredMatch) → List (List ScoredMatch))
    (self : Engine) (q : QString) (k : Nat) :
    (search sort sched self q k).1 <+: (search sort sched self q ((k + 1 : Nat) : Int)).1 ∧
    ∀ sched' : List (List ScoredMatch) → List (List ScoredMatch),
      IsSchedule sched → IsSchedule sched' → self.m_entries.length ≤ 1000 →
      (search sort sched self q k).1 <+: (search sort sched' self q ((k + 1 : Nat) : Int)).1 := by
  refine ⟨search_isPrefix sort sched self q k, fun sched' hs hs' hlen => ?_⟩
  rw [search_fst_one_batch sort hs' hs self hlen q]
  exact search_isPrefix sort sched self q k

/-- C5 at the example collection, the query `test`, `k = 1` and two batch orders. -/
theorem C5_truncation_amended_witness :
    (search stableSort inOrder (setCollection fresh demoCollection) "test".toList
        ((1 : Nat) : Int)).1 <+:
      (search stableSort lastFirst (setCollection fresh demoCollection) "test".toList
        ((1 + 1 : Nat) : Int)).1 :=
  (C5_truncation_amended stableSort inOrder (setCollection fresh demoCollection)
    "test".toList 1).2 lastFirst inOrder_isSchedule lastFirst_isSchedule (by decide)

/-- C5 as stated fails: in the state after `SetCollection` of 1001 paths whose
first and last both have the name `z`, `Search("z", 1)` with the second batch
appending first returns `/b/z`, and `Search("z", 2)` with the batches
appending in index order starts with `/a/z` (stable `std::sort`). -/
theorem C5_truncation_counterexample :
    ¬ ((search stableSort lastFirst (setCollection fresh bigCollection) "z".toList 1).1 <+:
        (search stableSort inOrder (setCollection fresh bigCollection) "z".toList 2).1) ∧
    IsStdSort stableSort ∧ IsSchedule lastFirst ∧ IsSchedule inOrder := by
  refine ⟨?_, stableSort_isStdSort, lastFirst_isSchedule, inOrder_isSchedule⟩
  rw [big_entries,
    search_miss stableSort_isStdSort lastFirst_isSchedule _ _ _ (by decide) (by rfl),
    search_miss stableSort_isStdSort inOrder_isSchedule _ _ _ (by decide) (by rfl)]
  have hz : toLower "z".toList = "z".toList := by decide
  obtain ⟨tl1, h1⟩ := big_missResults_lastFirst 0
  obtain ⟨tl2, h2⟩ := big_missResults_inOrder 1
  have h1' := big_missResults_one h1
  simp only [hz, h1']
  have h2' : missResults stableSort inOrder bigEntries "z".toList 2 = "/a/z".toList :: tl2 := h2
  rw [h2']
  rintro ⟨t, ht⟩
  have hhead : "/b/z".toList = "/a/z".toList := (List.cons.inj ht).1
  exact absurd hhead (by decide)

/-! ## C6: the order of the results of a cache miss -/

/-- C6, as amended: for a non-empty query that is not in the cache and
`k ≥ 0`, `search` returns the first `k` paths of an arrangement of exactly the
Index entries that score above 0 for the lowercased query, ordered by
descending score.  The order among equal scores is the one `std::sort` leaves
from the order in which the batches appended their results; with a sort that
keeps equal elements in order and batches appending in index order, equal
scores stay in Index order. -/
theorem C6_ranking_amended (sort : List ScoredMatch → List ScoredMatch)
    (sched : List (List ScoredMatch) → List (List ScoredMatch))
    (hsort : IsStdSort sort) (hsched : IsSchedule sched)
    (self : Engine) (q : QString) (hq : q ≠ [])
    (hc : cacheValue self.m_queryCache (toLower q) = none) (k : Nat) :
    (∃ ranked : List ScoredMatch,
      ranked.Perm ((self.m_entries.filter
          (fun e => decide (calculateScore (toLower q) e > 0))).map
          (fun e => (e.fullPath, calculateScore (toLower q) e))) ∧
      ranked.Pairwise (fun a b => a.2 ≥ b.2) ∧
      (search sort sched self q k).1 = (ranked.take k).map Prod.fst) ∧
    (search stableSort inOrder self q k).1 = specRanking self.m_entries (toLower q) k := by
  constructor
  · refine ⟨rankedMatches sort sched self.m_entries (toLower q), ?_, ?_, ?_⟩
    · rw [← scoreFileBatch_eq_map_filter]
      exact rankedMatches_perm hsort hsched _ _
    · exact (rankedMatches_sorted hsort sched _ _).imp (fun h => not_lt.1 h)
    · rw [search_miss hsort hsched self q k hq hc, missResults_nat]
  · rw [search_miss stableSort_isStdSort inOrder_isSchedule self q k hq hc,
      missResults_stable_inOrder]

/-- C6 at the example collection, the query `test` and `k = 10`. -/
theorem C6_ranking_amended_witness :
    (∃ ranked : List ScoredMatch,
      ranked.Perm (((setCollection fresh demoCollection).m_entries.filter
          (fun e => decide (calculateScore (toLower "test".toList) e > 0))).map
          (fun e => (e.fullPath, calculateScore (toLower "test".toList) e))) ∧
      ranked.Pairwise (fun a b => a.2 ≥ b.2) ∧
      (search reversingSort inOrder (setCollection fresh demoCollection) "test".toList
        ((10 : Nat) : Int)).1 = (ranked.take 10).map Prod.fst) ∧
    (search stableSort inOrder (setCollection fresh demoCollection) "test".toList
        ((10 : Nat) : Int)).1 =
      specRanking (setCollection fresh demoCollection).m_entries (toLower "test".toList) 10 :=
  C6_ranking_amended reversingSort inOrder reversingSort_isStdSort inOrder_isSchedule
    (setCollection fresh demoCollection) "test".toList (by decide) (by decide) 10

/-- C6 as stated fails on the order of equal scores.  A `std::sort` that
reverses equal elements returns `/a/testing.cpp` before `/a/test.cpp` (both
800) for the example collection; and with a stable `std::sort`, when the
second batch of a 1001-entry Index appends first, the best match of `z` is
the last entry `/b/z` and not the first entry `/a/z` of the same score. -/
theorem C6_ranking_counterexample :
    (IsStdSort reversingSort ∧
      cacheValue (setCollection fresh demoCollection).m_queryCache (toLower "test".toList) =
        none ∧
      (search reversingSort inOrder (setCollection fresh demoCollection) "test".toList 10).1 =
        ["/a/testing.cpp".toList, "/a/test.cpp".toList, "/a/other.md".toList] ∧
      specRanking (setCollection fresh demoCollection).m_entries (toLower "test".toList) 10 =
        ["/a/test.cpp".toList, "/a/testing.cpp".toList, "/a/other.md".toList]) ∧
    (IsStdSort stableSort ∧ IsSchedule lastFirst ∧
      cacheValue (setCollection fresh bigCollection).m_queryCache (toLower "z".toList) = none ∧
      (search stableSort lastFirst (setCollection fresh bigCollection) "z".toList 1).1 =
        ["/b/z".toList] ∧
      specRanking (setCollection fresh bigCollection).m_entries (toLower "z".toList) 1 =
        ["/a/z".toList]) := by
  refine ⟨⟨reversingSort_isStdSort, by decide, by decide, by decide⟩,
    stableSort_isStdSort, lastFirst_isSchedule, ?_, ?_, ?_⟩
  · rw [big_entries]
    rfl
  · rw [big_entries,
      search_miss stableSort_isStdSort lastFirst_isSchedule _ _ _ (by decide) (by rfl)]
    obtain ⟨tl1, h1⟩ := big_missResults_lastFirst 0
    have hz : toLower "z".toList = "z".toList := by decide
    simp only [hz]
    exact big_missResults_one h1
  · rw [big_entries]
    have hz : toLower "z".toList = "z".toList := by decide
    obtain ⟨tl2, h2⟩ := big_missResults_inOrder 0
    have h2' := big_missResults_one h2
    rw [hz, ← h2']
    exact (missResults_stable_inOrder bigEntries "z".toList 1).symm

/-! ## C7: the Index that `setCollection` builds -/

/-- C7, the code at the failing input: for a collection that holds the same
path twice, `collection.indexOf(path)` finds the first slot both times, and
the second entry of the Index stays a default-constructed entry with an empty
`fullPath`. -/
theorem C7_duplicate_paths_fail :
    (setCollection fresh ["/a/x.txt".toList, "/a/x.txt".toList]).m_entries =
      [mkEntry "/a/x.txt".toList, FileEntry.empty] ∧
    (setCollection fresh ["/a/x.txt".toList, "/a/x.txt".toList]).m_entries ≠
      ["/a/x.txt".toList, "/a/x.txt".toList].map mkEntry := by
  decide

/-! ## C8: browse mode -/

/-- C8: for the empty query and every `k ≥ 0`, `search` returns the `fullPath`
of the first `min k |Index|` entries of the Index in order, whatever the cache
holds, and leaves the engine, the cache included, as it was. -/
theorem C8_browse_mode (sort : List ScoredMatch → List ScoredMatch)
    (sched : List (List ScoredMatch) → List (List ScoredMatch))
    (self : Engine) (k : Nat) :
    (search sort sched self [] k).1 =
        (self.m_entries.take (min k self.m_entries.length)).map FileEntry.fullPath ∧
    (search sort sched self [] k).1 = (self.m_entries.map FileEntry.fullPath).take k ∧
    (search sort sched self [] k).1.length = min k self.m_entries.length ∧
    (search sort sched self [] k).2 = self := by
  rw [search_browse]
  have e : (min (k : Int) (self.m_entries.length : Int)).toNat = min k self.m_entries.length := by
    omega
  dsimp only
  rw [e]
  refine ⟨rfl, ?_, ?_, rfl⟩
  · rw [List.map_take, List.take_eq_take]
    simp
  · simp

/-- C8 at a collection of five paths and `k = 3`: the first three paths, the
cache untouched. -/
theorem C8_browse_mode_witness :
    search stableSort inOrder
        (setCollection fresh ["/e".toList, "/d".toList, "/c".toList, "/b".toList, "/a".toList])
        [] ((3 : Nat) : Int) =
      (["/e".toList, "/d".toList, "/c".toList],
        setCollection fresh ["/e".toList, "/d".toList, "/c".toList, "/b".toList, "/a".toList]) :=
  Prod.ext
    ((C8_browse_mode stableSort inOrder
      (setCollection fresh ["/e".toList, "/d".toList, "/c".toList, "/b".toList, "/a".toList])
      3).2.1.trans (by decide))
    (C8_browse_mode stableSort inOrder
      (setCollection fresh ["/e".toList, "/d".toList, "/c".toList, "/b".toList, "/a".toList])
      3).2.2.2

/-! ## C9: what a search can return -/

/-- C9: in a reachable state, for a non-empty query and `k ≥ 0`, `search`
returns at most `k` strings, each the `fullPath` of an entry of the current
Index that scores above 0 for the lowercased query; so it returns the empty
list when the Index is empty or no entry scores above 0. -/
theorem C9_search_results_valid (sort : List ScoredMatch → List ScoredMatch)
    (sched : List (List ScoredMatch) → List (List ScoredMatch))
    (hsort : IsStdSort sort) (hsched : IsSchedule sched)
    (self : Engine) (hr : Reachable sort self) (q : QString) (hq : q ≠ []) (k : Nat) :
    (search sort sched self q k).1.length ≤ k ∧
    (∀ p ∈ (search sort sched self q k).1,
      ∃ e ∈ self.m_entries, e.fullPath = p ∧ calculateScore (toLower q) e > 0) ∧
    ((self.m_entries = [] ∨ ∀ e ∈ self.m_entries, ¬ calculateScore (toLower q) e > 0) →
      (search sort sched self q k).1 = []) := by
  have key : (search sort sched self q k).1.length ≤ k ∧
      ∀ p ∈ (search sort sched self q k).1,
        ∃ e ∈ self.m_entries, e.fullPath = p ∧ calculateScore (toLower q) e > 0 := by
    cases hc : cacheValue self.m_queryCache (toLower q) with
    | some cached =>
      rw [search_hit sort sched self q k cached hq hc]
      have hm : mid0 cached (k : Int) = cached.take k := by
        unfold mid0
        rw [if_neg (by omega)]
        simp
      simp only [hm]
      refine ⟨by simp, fun p hp => ?_⟩
      exact reachable_cacheValid hsort hr _ (cacheValue_mem hc) p (List.mem_of_mem_take hp)
    | none =>
      rw [search_miss hsort hsched self q k hq hc]
      exact ⟨missResults_length_le _ _ _ _ _, missResults_valid hsort hsched _ _ _⟩
  refine ⟨key.1, key.2, fun h => ?_⟩
  apply List.eq_nil_iff_forall_not_mem.2
  intro p hp
  obtain ⟨e, he, _, hpos⟩ := key.2 p hp
  rcases h with h | h
  · rw [h] at he
    simp at he
  · exact h e he hpos

/-- C9 at the example collection, the query `test` and `k = 10`. -/
theorem C9_search_results_valid_witness :
    (search stableSort inOrder (setCollection fresh demoCollection) "test".toList
        ((10 : Nat) : Int)).1.length ≤ 10 ∧
    (∀ p ∈ (search stableSort inOrder (setCollection fresh demoCollection) "test".toList
        ((10 : Nat) : Int)).1,
      ∃ e ∈ (setCollection fresh demoCollection).m_entries,
        e.fullPath = p ∧ calculateScore (toLower "test".toList) e > 0) ∧
    (((setCollection fresh demoCollection).m_entries = [] ∨
        ∀ e ∈ (setCollection fresh demoCollection).m_entries,
          ¬ calculateScore (toLower "test".toList) e > 0) →
      (search stableSort inOrder (setCollection fresh demoCollection) "test".toList
        ((10 : Nat) : Int)).1 = []) :=
  C9_search_results_valid stableSort inOrder stableSort_isStdSort inOrder_isSchedule
    (setCollection fresh demoCollection)
    (Reachable.setCollection demoCollection Reachable.fresh) "test".toList (by decide) 10

/-! ## C10: the cache is bounded -/

/-- C10: in every reachable state the query cache holds at most 1000 entries,
and a search that misses while the cache holds 1000 entries leaves the engine,
the cache included, as it was. -/
theorem C10_cache_bounded (sort : List ScoredMatch → List ScoredMatch)
    (hsort : IsStdSort sort) (self : Engine) (hr : Reachable sort self) :
    self.m_queryCache.length ≤ 1000 ∧
    ∀ (sched : List (List ScoredMatch) → List (List ScoredMatch)) (q : QString) (k : Int),
      self.m_queryCache.length = 1000 →
      cacheValue self.m_queryCache (toLower q) = none →
      (search sort sched self q k).2 = self := by
  refine ⟨reachable_cache_length hsort hr, ?_⟩
  intro sched q k hfull hmiss
  unfold search
  simp only [hmiss]
  split
  · rfl
  · split
    · rfl
    · rw [if_neg]
      rintro ⟨_, h⟩
      omega

/-- C10 at the reachable state `fullState`, whose cache holds exactly 1000
entries: the search for the uncached query `z` leaves the engine as it was. -/
theorem C10_cache_bounded_witness :
    fullState.m_queryCache.length ≤ 1000 ∧
    (search stableSort inOrder fullState "z".toList 1).2 = fullState :=
  ⟨(C10_cache_bounded stableSort stableSort_isStdSort fullState fullState_reachable).1,
    (C10_cache_bounded stableSort stableSort_isStdSort fullState fullState_reachable).2
      inOrder "z".toList 1 fullState_spec.2.1 fullState_spec.2.2⟩

/-! ## C11: `setCollection` empties the cache -/

/-- C11: for every engine state and every input sequence, the empty one
included, the query cache is empty after `setCollection`; with the empty
sequence the Index is empty as well; and the resulting state is the same
whatever Index and cache the engine had before. -/
theorem C11_setCollection_clears (self other : Engine) (collection : List QString) :
    (setCollection self collection).m_queryCache = [] ∧
    setCollection self [] = ⟨[], []⟩ ∧
    setCollection self collection = setCollection other collection := by
  refine ⟨?_, rfl, rfl⟩
  unfold setCollection
  split <;> rfl

/-- C11 at the state left by a search on the example collection, whose cache
is not empty. -/
theorem C11_setCollection_clears_witness :
    (search stableSort inOrder (setCollection fresh demoCollection) "test".toList 10).2.m_queryCache
        ≠ [] ∧
    (setCollection
      (search stableSort inOrder (setCollection fresh demoCollection) "test".toList 10).2
      demoCollection).m_queryCache = [] :=
  ⟨by decide,
    (C11_setCollection_clears
      (search stableSort inOrder (setCollection fresh demoCollection) "test".toList 10).2
      fresh demoCollection).1⟩

/-! ## C12: query normalization -/

/-- C12: for every engine state, query and `k`, `search` returns the same list
and leaves the same engine, cache included, for the query and for its
lowercase form; two queries with the same lowercase form are searched
alike, the cache key and the scoring using the lowercase form only. -/
theorem C12_query_normalization (sort : List ScoredMatch → List ScoredMatch)
    (sched : List (List ScoredMatch) → List (List ScoredMatch))
    (self : Engine) (q : QString) (k : Int) :
    search sort sched self q k = search sort sched self (toLower q) k ∧
    ∀ q' : QString, toLower q' = toLower q →
      search sort sched self q' k = search sort sched self q k := by
  constructor
  · unfold search
    rw [toLower_idem]
  · intro q' h
    unfold search
    rw [h]

/-- C12 at the example collection and the queries `TeSt` and `test`. -/
theorem C12_query_normalization_witness :
    search stableSort inOrder (setCollection fresh demoCollection) "TeSt".toList 10 =
      search stableSort inOrder (setCollection fresh demoCollection) "test".toList 10 :=
  ((C12_query_normalization stableSort inOrder (setCollection fresh demoCollection)
    "TeSt".toList 10).1).trans (by decide)

/-! ## C13: the range of the score -/

/-- C13: for every query, the non-empty ones in particular, and every entry
the score is an integer from 0 to 1000. -/
theorem C13_score_range (q : QString) (e : FileEntry) :
    0 ≤ calculateScore q e ∧ calculateScore q e ≤ 1000 :=
  calculateScore_bounds q e

/-! ## C14: the exact match -/

/-- C14: for a non-empty query, an entry whose lowercased name equals the
query scores exactly 1000, and 1000 is the score of no other entry. -/
theorem C14_exact_match (q : QString) (e : FileEntry) (hq : q ≠ []) :
    (e.lowerName = q → calculateScore q e = 1000) ∧
    (calculateScore q e = 1000 → e.lowerName = q) :=
  ⟨(calculateScore_eq_1000_iff q e hq).2, (calculateScore_eq_1000_iff q e hq).1⟩

/-- C14 at the query `test` and an entry with the lowercased name `test`. -/
theorem C14_exact_match_witness :
    "test".toList ≠ [] ∧
    calculateScore "test".toList (mkEntry "/a/Test".toList) = 1000 :=
  ⟨by decide, (C14_exact_match "test".toList (mkEntry "/a/Test".toList) (by decide)).1 (by decide)⟩

/-! ## C15: a subsequence scores above 0 -/

/-- C15: for a non-empty query whose characters occur in order, not
necessarily next to each other, in the lowercased name, the score is above 0;
and the left-to-right search of the subsequence stage, which looks for each
character strictly after the previous match, finds all characters whenever
the query is a subsequence of the name at all. -/
theorem C15_subsequence_positive (q : QString) (e : FileEntry) (hq : q ≠ [])
    (hs : q.Sublist e.lowerName) :
    calculateScore q e > 0 ∧ ∃ lastIndex, subseqLoop e.lowerName q (-1) = some lastIndex :=
  ⟨calculateScore_pos_of_sublist hq hs, (subseqLoop_isSome_iff e.lowerName q).2 hs⟩

/-- C15 at the query `tst` and the name `test_file`: the score is 96. -/
theorem C15_subsequence_positive_witness :
    "tst".toList.Sublist (mkEntry "/a/test_file".toList).lowerName ∧
    calculateScore "tst".toList (mkEntry "/a/test_file".toList) = 96 ∧
    calculateScore "tst".toList (mkEntry "/a/test_file".toList) > 0 :=
  ⟨by decide, by decide,
    (C15_subsequence_positive "tst".toList (mkEntry "/a/test_file".toList) (by decide)
      (by decide)).1⟩

/-! ## C16: the early returns of `levenshteinDistance` -/

/-- C16: `levenshteinDistance` of the empty string and `b` is the length of
`b`; of `a` and the empty string the length of `a`; and of non-empty `a` and
`b` whose lengths differ by more than the length of `a`, the length of `b`. -/
theorem C16_degenerate_cases (a b : QString) :
    levenshteinDistance [] b = b.length ∧
    levenshteinDistance a [] = a.length ∧
    (a ≠ [] → b ≠ [] → |(a.length : Int) - (b.length : Int)| > (a.length : Int) →
      levenshteinDistance a b = b.length) := by
  refine ⟨by simp [levenshteinDistance], ?_, ?_⟩
  · unfold levenshteinDistance
    simp only [List.length_nil, Nat.cast_zero]
    split
    · rename_i h
      exact h.symm
    · rfl
  · intro ha hb h
    have ha' : ¬ (a.length : Int) = 0 := fun e =>
      ha (List.length_eq_zero.1 (by exact_mod_cast e))
    have hb' : ¬ (b.length : Int) = 0 := fun e =>
      hb (List.length_eq_zero.1 (by exact_mod_cast e))
    unfold levenshteinDistance
    simp only [if_neg ha', if_neg hb', if_pos h]

/-- C16 at the examples of the specification and at `ab` against `abcde`. -/
theorem C16_degenerate_cases_witness :
    levenshteinDistance "".toList "abc".toList = 3 ∧
    levenshteinDistance "abc".toList "".toList = 3 ∧
    levenshteinDistance "ab".toList "abcde".toList = 5 :=
  ⟨(C16_degenerate_cases "abc".toList "abc".toList).1,
    (C16_degenerate_cases "abc".toList "abc".toList).2.1,
    (C16_degenerate_cases "ab".toList "abcde".toList).2.2 (by decide) (by decide) (by decide)⟩

/-! ## C17: `levenshteinDistance` below the threshold -/

/-- C17: for all strings `a` and `b` whose standard Levenshtein distance is
strictly less than the length of `a`, `levenshteinDistance a b` is that
standard distance. -/
theorem C17_bounded_equals_standard (a b : QString)
    (h : standardLevenshtein a b < a.length) :
    levenshteinDistance a b = (standardLevenshtein a b : Int) := by
  rcases levenshteinDistance_spec a b with h1 | ⟨_, h2⟩ | ⟨_, h3⟩
  · exact h1
  · omega
  · have := length_le_add_standardLevenshtein a b
    omega

/-- C17 at `kitten` and `sitting`: the standard distance is 3, below 6, and
`levenshteinDistance` returns 3. -/
theorem C17_bounded_equals_standard_witness :
    standardLevenshtein "kitten".toList "sitting".toList = 3 ∧
    levenshteinDistance "kitten".toList "sitting".toList = 3 :=
  ⟨by decide,
    (C17_bounded_equals_standard "kitten".toList "sitting".toList (by decide)).trans
      (by decide)⟩

/-! ## C18: the score bands above the edit-distance stage -/

/-- C19, as amended: for one query, an entry scored by the edit-distance stage
with bounded distance `d` outranks an entry scored by the subsequence stage
with match length `m` (last matched index minus first matched index, plus 1)
exactly when `10 d < 400 + min(90, m)`; `m` is at least the query length plus
1, so the edit-distance entry outranks every subsequence entry whenever
`10 d < 400 + min(90, len q + 1)`, hence whenever `d` is at most 42, hence for
every query of at most 21 characters. The edit-distance score lies between 1
and 500, the subsequence score between 10 and `100 - min(90, len q + 1)`. -/
theorem C19_edit_outranks_subsequence_amended (q : QString) (e1 e2 : FileEntry)
    (h1 : stageOf q e1 = Stage.editDistanceMatch)
    (h2 : stageOf q e2 = Stage.subsequenceMatch) :
    (∃ first rest, matchPositions e2.lowerName q (-1) = some (first :: rest) ∧
      (q.length : Int) + 1 ≤ (first :: rest).getLastD first - first + 1 ∧
      (calculateScore q e1 > calculateScore q e2 ↔
        10 * levenshteinDistance q e1.lowerName <
          400 + min 90 ((first :: rest).getLastD first - first + 1))) ∧
    (10 * levenshteinDistance q e1.lowerName < 400 + min 90 ((q.length : Int) + 1) →
      calculateScore q e1 > calculateScore q e2) ∧
    (levenshteinDistance q e1.lowerName ≤ 42 → calculateScore q e1 > calculateScore q e2) ∧
    (q.length ≤ 21 → calculateScore q e1 > calculateScore q e2) ∧
    (1 ≤ calculateScore q e1 ∧ calculateScore q e1 ≤ 500) ∧
    (10 ≤ calculateScore q e2 ∧
      calculateScore q e2 ≤ 100 - min 90 ((q.length : Int) + 1)) := by
  have s1 := (calculateScore_of_stage q e1).2.2.2.2.2.1 h1
  have hd := s1.2
  have hn := levenshteinDistance_nonneg q e1.lowerName
  obtain ⟨first, rest, hp, hm, hs⟩ := subsequenceStage_window q e2 h2
  have e1s : calculateScore q e1 = max 1 (500 - levenshteinDistance q e1.lowerName * 10) :=
    s1.1
  have key : 10 * levenshteinDistance q e1.lowerName < 400 + min 90 ((q.length : Int) + 1) →
      calculateScore q e1 > calculateScore q e2 := by
    intro h
    rw [e1s, hs]
    omega
  refine ⟨⟨first, rest, hp, hm, ?_⟩, key, fun h => key ?_, fun h => key ?_,
    editDistance_score_bounds q e1 h1, ?_, ?_⟩
  · rw [e1s, hs]
    omega
  · omega
  · have hq : (q.length : Int) ≤ 21 := by exact_mod_cast h
    omega
  · rw [hs]
    omega
  · rw [hs]
    omega

set_option maxRecDepth 100000 in
/-- C19 at the bounds: for the query of 20 letters `x` and one `a` (21
characters), the name `a` followed by 41 letters `y` is scored 80 by the
edit-distance stage (bounded distance 42), and the name of 20 `x`, one `y`,
one `a` and 22 `y` is scored 78 by the subsequence stage (match length 22). -/
theorem C19_edit_outranks_subsequence_amended_witness :
    stageOf (List.replicate 20 'x' ++ ['a'])
      (mkEntry ('/' :: 'a' :: List.replicate 41 'y')) = Stage.editDistanceMatch ∧
    stageOf (List.replicate 20 'x' ++ ['a'])
      (mkEntry ('/' :: (List.replicate 20 'x' ++ 'y' :: 'a' :: List.replicate 22 'y'))) =
        Stage.subsequenceMatch ∧
    levenshteinDistance (List.replicate 20 'x' ++ ['a'])
      (mkEntry ('/' :: 'a' :: List.replicate 41 'y')).lowerName = 42 ∧
    calculateScore (List.replicate 20 'x' ++ ['a'])
      (mkEntry ('/' :: 'a' :: List.replicate 41 'y')) = 80 ∧
    calculateScore (List.replicate 20 'x' ++ ['a'])
      (mkEntry ('/' :: (List.replicate 20 'x' ++ 'y' :: 'a' :: List.replicate 22 'y'))) = 78 ∧
    calculateScore (List.replicate 20 'x' ++ ['a'])
        (mkEntry ('/' :: 'a' :: List.replicate 41 'y')) >
      calculateScore (List.replicate 20 'x' ++ ['a'])
        (mkEntry ('/' :: (List.replicate 20 'x' ++ 'y' :: 'a' :: List.replicate 22 'y'))) :=
  ⟨by decide, by decide, by decide, by decide, by decide,
    (C19_edit_outranks_subsequence_amended _ _ _ (by decide) (by decide)).2.2.2.1
      (by decide)⟩

set_option maxRecDepth 100000 in
/-- C19 as stated fails: for the query of 22 letters `x`, the file name `x`
followed by 43 letters `y` is scored 70 by the edit-distance stage (bounded
distance 43), and the file name of 21 `x`, one `y`, one `x` and 22 `y` is
scored 77 by the subsequence stage. -/
theorem C19_edit_outranks_subsequence_counterexample :
    stageOf (List.replicate 22 'x')
      (mkEntry ('/' :: 'x' :: List.replicate 43 'y')) = Stage.editDistanceMatch ∧
    stageOf (List.replicate 22 'x')
      (mkEntry ('/' :: (List.replicate 21 'x' ++ 'y' :: 'x' :: List.replicate 22 'y'))) =
        Stage.subsequenceMatch ∧
    calculateScore (List.replicate 22 'x')
      (mkEntry ('/' :: 'x' :: List.replicate 43 'y')) = 70 ∧
    calculateScore (List.replicate 22 'x')
      (mkEntry ('/' :: (List.replicate 21 'x' ++ 'y' :: 'x' :: List.replicate 22 'y'))) = 77 := by
  decide

/-! ## C20: the prefix and substring stages -/

/-- C20: for a non-empty query and an entry whose lowercased name is not the
query, the score is 800 if the name starts with the query, and otherwise 600
if the name contains the query as a contiguous block. -/
theorem C20_prefix_substring (q : QString) (e : FileEntry) (hq : q ≠ [])
    (hne : e.lowerName ≠ q) :
    (q <+: e.lowerName → calculateScore q e = 800) ∧
    (¬ q <+: e.lowerName → q <:+: e.lowerName → calculateScore q e = 600) := by
  have h0 : ¬ q.isEmpty = true := fun h => hq (List.isEmpty_iff.1 h)
  constructor
  · intro hp
    have h2 : startsWith e.lowerName q = true := (startsWith_iff _ _).2 hp
    unfold calculateScore
    rw [if_neg h0, if_neg hne, if_pos h2]
  · intro hp hi
    have h2 : ¬ startsWith e.lowerName q = true := fun h => hp ((startsWith_iff _ _).1 h)
    have h3 : contains e.lowerName q = true := (contains_iff _ _).2 hi
    unfold calculateScore
    rw [if_neg h0, if_neg hne, if_neg h2, if_pos h3]

/-- C20 at the query `test` and the names `testing.cpp` and `my_test.cpp`. -/
theorem C20_prefix_substring_witness :
    calculateScore "test".toList (mkEntry "/a/testing.cpp".toList) = 800 ∧
    calculateScore "test".toList (mkEntry "/a/my_test.cpp".toList) = 600 :=
  ⟨(C20_prefix_substring "test".toList (mkEntry "/a/testing.cpp".toList) (by decide)
      (by decide)).1 (by decide),
    (C20_prefix_substring "test".toList (mkEntry "/a/my_test.cpp".toList) (by decide)
      (by decide)).2 (by decide) (by decide)⟩

/-! ## C21: the initialism stage -/

/-- C21: for a query of 2 to 5 characters and an entry whose lowercased name
does not contain the query, the score is 550 if the name has at least as many
words (non-empty maximal runs of ASCII letters and digits) as the query has
characters and the first character of word `i` is the `i`-th query character
for every position of the query; and 550 is the score in no other case. -/
theorem C21_initialism_stage (q : QString) (e : FileEntry) :
    (2 ≤ q.length → q.length ≤ 5 → ¬ q <:+: e.lowerName →
      q.length ≤ (alnumRuns e.lowerName).length →
      (∀ i (hi : i < q.length) (hw : i < (alnumRuns e.lowerName).length),
        (alnumRuns e.lowerName)[i].head? = some q[i]) →
      calculateScore q e = 550) ∧
    (calculateScore q e = 550 →
      2 ≤ q.length ∧ q.length ≤ 5 ∧ ¬ q <:+: e.lowerName ∧
      q.length ≤ (alnumRuns e.lowerName).length ∧
      ∀ i (hi : i < q.length) (hw : i < (alnumRuns e.lowerName).length),
        (alnumRuns e.lowerName)[i].head? = some q[i]) := by
  rw [calculateScore_eq_550_iff, stageOf_initialism_iff]
  unfold initialismApplies
  rw [words_eq_alnumRuns]
  constructor
  · intro h2 h5 hnc hlen hall
    exact ⟨hnc, ⟨h5, h2⟩, hlen, (initialsMatch_iff q _ hlen).2 hall⟩
  · rintro ⟨hnc, ⟨h5, h2⟩, hlen, hm⟩
    exact ⟨h2, h5, hnc, hlen, (initialsMatch_iff q _ hlen).1 hm⟩

/-- C21 at the query `mfn` and the name `my_file-name.txt`, whose words are
`my`, `file`, `name` and `txt`. -/
theorem C21_initialism_stage_witness :
    alnumRuns (mkEntry "/x/My_File-name.txt".toList).lowerName =
      ["my".toList, "file".toList, "name".toList, "txt".toList] ∧
    calculateScore "mfn".toList (mkEntry "/x/My_File-name.txt".toList) = 550 :=
  ⟨by decide,
    (C21_initialism_stage "mfn".toList (mkEntry "/x/My_File-name.txt".toList)).1
      (by decide) (by decide) (by decide) (by decide) (by decide)⟩

/-! ## C22: the edit-distance stage -/

/-- C22: for a non-empty query and an entry to which none of the exact,
prefix, substring and initialism stages applies: if the query has more than 2
characters or the name fewer than 10, and the bounded distance `d` is at most
twice the query length, the score is `max(1, 500 - 10 d)`; if the stage is not
attempted or `d` is larger, the score is the one of the subsequence stage. -/
theorem C22_edit_distance_stage (q : QString) (e : FileEntry) (hq : q ≠ [])
    (_h1 : e.lowerName ≠ q) (_h2 : ¬ q <+: e.lowerName) (h3 : ¬ q <:+: e.lowerName)
    (h4 : ¬ initialismApplies q e.lowerName) :
    ((q.length > 2 ∨ e.lowerName.length < 10) →
      levenshteinDistance q e.lowerName ≤ 2 * (q.length : Int) →
      calculateScore q e = max 1 (500 - 10 * levenshteinDistance q e.lowerName)) ∧
    (¬ (q.length > 2 ∨ e.lowerName.length < 10) ∨
        levenshteinDistance q e.lowerName > 2 * (q.length : Int) →
      calculateScore q e = subsequenceStage q e.lowerName) := by
  rw [calculateScore_late q e hq h3 h4]
  unfold editStageAccepts
  constructor
  · intro ha hd
    rw [if_pos ⟨ha, by omega⟩, mul_comm]
  · intro h
    rw [if_neg]
    rintro ⟨ha, hd⟩
    rcases h with h | h
    · exact h ha
    · omega

/-- C22 at the query `abc`: the name `xyz` is scored 470 by the edit-distance
stage (distance 3), and the name `a_long_b_name_c`, too long for the stage,
is scored by the subsequence stage. -/
theorem C22_edit_distance_stage_witness :
    calculateScore "abc".toList (mkEntry "/a/xyz".toList) = 470 ∧
    calculateScore "abc".toList (mkEntry "/a/xa_long_b_name_c".toList) =
      subsequenceStage "abc".toList (mkEntry "/a/xa_long_b_name_c".toList).lowerName :=
  ⟨((C22_edit_distance_stage "abc".toList (mkEntry "/a/xyz".toList) (by decide) (by decide)
      (by decide) (by decide) (by decide)).1 (by decide) (by decide)).trans (by decide),
    (C22_edit_distance_stage "abc".toList (mkEntry "/a/xa_long_b_name_c".toList) (by decide)
      (by decide) (by decide) (by decide) (by decide)).2 (by decide)⟩

/-! ## C23: the score of the subsequence stage -/

/-- C23, as amended: for an entry scored by the subsequence stage, the score
is `max(10, 100 - min(90, matchLength))`, where `matchLength` is the number of
characters from the first matched character to the last matched character of
the left-to-right match, both included (last matched index minus first
matched index, plus 1). -/
theorem C23_subsequence_score_amended (q : QString) (e : FileEntry)
    (h : stageOf q e = Stage.subsequenceMatch) :
    ∃ first rest, matchPositions e.lowerName q (-1) = some (first :: rest) ∧
      0 ≤ first ∧ first ≤ (first :: rest).getLastD first ∧
      calculateScore q e =
        max 10 (100 - min 90 ((first :: rest).getLastD first - first + 1)) := by
  obtain ⟨h0, h3, h4, h5, h6⟩ := (stageOf_subsequence_iff q e).1 h
  obtain ⟨first, rest, hp, hf, hl, hs⟩ := subsequenceStage_eq e.lowerName q h0 h6
  refine ⟨first, rest, hp, hf, hl, ?_⟩
  rw [calculateScore_late q e h0 h3 h4, if_neg h5, hs]
  have := min_le_left (90 : Int) ((first :: rest).getLastD first - first + 1)
  exact (max_eq_right (by omega)).symm

/-- C23 at the query `tst` and the name `test_file`: the characters are
matched at the indices 0, 2 and 3 and the score is 96. -/
theorem C23_subsequence_score_amended_witness :
    stageOf "tst".toList (mkEntry "/a/test_file".toList) = Stage.subsequenceMatch ∧
    ∃ first rest,
      matchPositions (mkEntry "/a/test_file".toList).lowerName "tst".toList (-1) =
        some (first :: rest) ∧
      0 ≤ first ∧ first ≤ (first :: rest).getLastD first ∧
      calculateScore "tst".toList (mkEntry "/a/test_file".toList) =
        max 10 (100 - min 90 ((first :: rest).getLastD first - first + 1)) :=
  ⟨by decide,
    C23_subsequence_score_amended "tst".toList (mkEntry "/a/test_file".toList) (by decide)⟩

/-- C23 as stated fails: for the query `tst` and the name `test_file` the
subsequence stage matches at the indices 0, 2 and 3, so the index distance
from the first to the last match is 3 and the claimed score 97; the code
computes `lastIndex + 1 - first = 4` and returns 96. -/
theorem C23_subsequence_score_counterexample :
    stageOf "tst".toList (mkEntry "/a/test_file".toList) = Stage.subsequenceMatch ∧
    matchPositions (mkEntry "/a/test_file".toList).lowerName "tst".toList (-1) =
      some [0, 2, 3] ∧
    calculateScore "tst".toList (mkEntry "/a/test_file".toList) = 96 ∧
    calculateScore "tst".toList (mkEntry "/a/test_file".toList) ≠
      max 10 (100 - min 90 ((3 : Int) - 0)) := by
  decide

/-! ## C24: the early abandon is sound -/

/-- C24: for non-empty `a` and `b` whose lengths differ by at most the length
of `a`, `levenshteinDistance a b` is the standard Levenshtein distance, or it
is the threshold, the length of `a`, and then the standard distance is at
least that; so it never exceeds the standard distance. -/
theorem C24_early_abandon_sound (a b : QString) (_ha : a ≠ []) (_hb : b ≠ [])
    (h : |(a.length : Int) - (b.length : Int)| ≤ (a.length : Int)) :
    (levenshteinDistance a b = (standardLevenshtein a b : Int) ∨
      (levenshteinDistance a b = (a.length : Int) ∧ a.length ≤ standardLevenshtein a b)) ∧
    levenshteinDistance a b ≤ (standardLevenshtein a b : Int) := by
  have hlen : ¬ 2 * a.length < b.length := by
    intro hl
    rw [abs_sub_comm, abs_of_nonneg (by omega)] at h
    omega
  rcases levenshteinDistance_spec a b with h1 | ⟨h1, h2⟩ | ⟨_, h3⟩
  · exact ⟨Or.inl h1, le_of_eq h1⟩
  · refine ⟨Or.inr ⟨h1, h2⟩, ?_⟩
    rw [h1]
    exact_mod_cast h2
  · exact absurd h3 hlen

/-- C24 at `abc` and `xyz`: the last row abandons and the result is the
threshold 3, which is the standard distance as well. -/
theorem C24_early_abandon_sound_witness :
    levenshteinDistance "abc".toList "xyz".toList = 3 ∧
    standardLevenshtein "abc".toList "xyz".toList = 3 ∧
    levenshteinDistance "abc".toList "xyz".toList ≤
      (standardLevenshtein "abc".toList "xyz".toList : Int) :=
  ⟨by decide, by decide,
    (C24_early_abandon_sound "abc".toList "xyz".toList (by decide) (by decide)
      (by decide)).2⟩

/-! ## C25: the order in which the batches append -/

/-- C25, as amended: within one cache-miss search, for every two orders in
which the batches append their results, the sorted matches are the same up to
order and carry the same scores position by position; the returned lists are
equal when the Index has at most 1000 entries (one batch), and when no two
matching entries have the same score. -/
theorem C25_batch_order_amended (sort : List ScoredMatch → List ScoredMatch)
    (sched1 sched2 : List (List ScoredMatch) → List (List ScoredMatch))
    (hsort : IsStdSort sort) (hs1 : IsSchedule sched1) (hs2 : IsSchedule sched2)
    (self : Engine) (q : QString) (hq : q ≠ [])
    (hc : cacheValue self.m_queryCache (toLower q) = none) (k : Int) :
    ((rankedMatches sort sched1 self.m_entries (toLower q)).Perm
        (rankedMatches sort sched2 self.m_entries (toLower q)) ∧
      (rankedMatches sort sched1 self.m_entries (toLower q)).map Prod.snd =
        (rankedMatches sort sched2 self.m_entries (toLower q)).map Prod.snd) ∧
    (self.m_entries.length ≤ 1000 →
      (search sort sched1 self q k).1 = (search sort sched2 self q k).1) ∧
    (((scoreFileBatch (toLower q) self.m_entries).map Prod.snd).Nodup →
      (search sort sched1 self q k).1 = (search sort sched2 self q k).1) := by
  refine ⟨rankedMatches_scores hsort hs1 hs2 _ _, ?_, ?_⟩
  · intro hlen
    exact search_fst_one_batch sort hs1 hs2 self hlen q k
  · intro hnd
    rw [search_miss hsort hs1 self q k hq hc, search_miss hsort hs2 self q k hq hc]
    exact missResults_distinct_scores hsort hs1 hs2 _ _ k hnd

/-- C25 at the example collection, the query `test` and two batch orders. -/
theorem C25_batch_order_amended_witness :
    (search stableSort inOrder (setCollection fresh demoCollection) "test".toList 10).1 =
      (search stableSort lastFirst (setCollection fresh demoCollection) "test".toList 10).1 :=
  (C25_batch_order_amended stableSort inOrder lastFirst stableSort_isStdSort
    inOrder_isSchedule lastFirst_isSchedule (setCollection fresh demoCollection)
    "test".toList (by decide) (by decide) 10).2.1 (by decide)

/-- C25 as stated fails: after `SetCollection` of 1001 paths whose first and
last both have the name `z`, the cache-miss `Search("z", 1)` returns `/a/z`
when the batches append in index order and `/b/z` when the second batch
appends first (stable `std::sort`, comparator on the score only). -/
theorem C25_batch_order_counterexample :
    cacheValue (setCollection fresh bigCollection).m_queryCache (toLower "z".toList) = none ∧
    IsSchedule inOrder ∧ IsSchedule lastFirst ∧ IsStdSort stableSort ∧
    (search stableSort inOrder (setCollection fresh bigCollection) "z".toList 1).1 =
      ["/a/z".toList] ∧
    (search stableSort lastFirst (setCollection fresh bigCollection) "z".toList 1).1 =
      ["/b/z".toList] := by
  have hz : toLower "z".toList = "z".toList := by decide
  refine ⟨?_, inOrder_isSchedule, lastFirst_isSchedule, stableSort_isStdSort, ?_, ?_⟩
  · rw [big_entries]
    rfl
  · rw [big_entries,
      search_miss stableSort_isStdSort inOrder_isSchedule _ _ _ (by decide) (by rfl)]
    obtain ⟨tl, h⟩ := big_missResults_inOrder 0
    simp only [hz]
    exact big_missResults_one h
  · rw [big_entries,
      search_miss stableSort_isStdSort lastFirst_isSchedule _ _ _ (by decide) (by rfl)]
    obtain ⟨tl, h⟩ := big_missResults_lastFirst 0
    simp only [hz]
    exact big_missResults_one h

/-! ## C26: the threshold test of the edit-distance stage -/

/-- C26: `levenshteinDistance a b` is at most twice the length of `a` if and
only if the length of `b` is at most twice the length of `a`; so when the
edit-distance stage is attempted for a non-empty query, every name of at most
twice the query length gets a positive score, and the score of the
edit-distance stage when none of the earlier stages applies. -/
theorem C26_threshold_is_length_test (a b q : QString) (e : FileEntry) :
    (levenshteinDistance a b ≤ 2 * (a.length : Int) ↔ b.length ≤ 2 * a.length) ∧
    (q ≠ [] → (q.length > 2 ∨ e.lowerName.length < 10) →
      e.lowerName.length ≤ 2 * q.length →
      calculateScore q e > 0 ∧
      (¬ q <:+: e.lowerName → ¬ initialismApplies q e.lowerName →
        stageOf q e = Stage.editDistanceMatch ∧
        calculateScore q e = max 1 (500 - 10 * levenshteinDistance q e.lowerName))) := by
  refine ⟨levenshteinDistance_le_iff a b, ?_⟩
  intro hq hatt hlen
  have hd : levenshteinDistance q e.lowerName ≤ (q.length : Int) * 2 := by
    have := (levenshteinDistance_le_iff q e.lowerName).2 hlen
    omega
  have hacc : editStageAccepts q e.lowerName := ⟨hatt, hd⟩
  refine ⟨?_, ?_⟩
  · have h0 := (calculateScore_bounds q e).1
    have hne : calculateScore q e ≠ 0 := fun h =>
      ((calculateScore_eq_zero_iff q e hq).1 h).2 hacc
    omega
  · intro h3 h4
    refine ⟨?_, ?_⟩
    · rw [stageOf_late q e hq h3 h4, if_pos hacc]
    · rw [calculateScore_late q e hq h3 h4, if_pos hacc, mul_comm]

/-- C26 at the query `abc` and the name `xyz`, which share no character:
the edit-distance stage returns 470. -/
theorem C26_threshold_is_length_test_witness :
    levenshteinDistance "abc".toList "xyz".toList ≤ 2 * ("abc".toList.length : Int) ∧
    calculateScore "abc".toList (mkEntry "/a/xyz".toList) > 0 ∧
    stageOf "abc".toList (mkEntry "/a/xyz".toList) = Stage.editDistanceMatch :=
  ⟨(C26_threshold_is_length_test "abc".toList "xyz".toList "abc".toList
      (mkEntry "/a/xyz".toList)).1.2 (by decide),
    ((C26_threshold_is_length_test "abc".toList "xyz".toList "abc".toList
      (mkEntry "/a/xyz".toList)).2 (by decide) (by decide) (by decide)).1,
    (((C26_threshold_is_length_test "abc".toList "xyz".toList "abc".toList
      (mkEntry "/a/xyz".toList)).2 (by decide) (by decide) (by decide)).2
        (by decide) (by decide)).1⟩

/-! ## C27: the early abandon and the last row -/

/-- C27: `levenshteinDistance` returns on every input what the function with
the early-abandon test removed from all rows but the last returns; for a
non-empty `b`, in every row `i` before the last the entry `curr[1]` is at
most `i + 1`, which is below the threshold, the length of `a`, so the test
fails there and no row is skipped; for non-empty `a` and `b` whose lengths
differ by at most the length of `a` the result is read off the last row. -/
theorem C27_abandon_last_row_only (a b : QString) :
    levenshteinDistance a b = levenshteinDistanceLastRow a b ∧
    (b ≠ [] → ∀ i : Nat, i + 1 < a.length →
      ∃ v rest, (levRows a b)[i]? = some (((i : Int) + 1) :: v :: rest) ∧
        v ≤ (i : Int) + 1 ∧ (i : Int) + 1 < (a.length : Int) ∧
        (v :: rest).all (fun w => !decide (w < (a.length : Int))) = false) ∧
    (a ≠ [] → b ≠ [] → |(a.length : Int) - (b.length : Int)| ≤ (a.length : Int) →
      ∃ row, (levRows a b).getLast? = some row ∧
        levenshteinDistance a b =
          if row.tail.all (fun v => !decide (v < (a.length : Int))) = true then
            (a.length : Int)
          else row.getD b.length 0) :=
  ⟨levenshteinDistance_eq_lastRow a b, fun hb i hi => levRows_spec a b hb i hi,
    levenshteinDistance_eq_rows a b⟩

/-- C27 at `kitten` and `sitting`: both functions return 3, and row 0 of the
table is `1, 1, 2, 3, 4, 5, 6, 7`. -/
theorem C27_abandon_last_row_only_witness :
    levenshteinDistanceLastRow "kitten".toList "sitting".toList = 3 ∧
    (levRows "kitten".toList "sitting".toList)[0]? = some [1, 1, 2, 3, 4, 5, 6, 7] :=
  ⟨((C27_abandon_last_row_only "kitten".toList "sitting".toList).1.symm).trans (by decide),
    by decide⟩

/-! ## C28: `setCollection` on pairwise distinct paths -/

/-- C28: for pairwise distinct paths, after `setCollection` the Index has as
many entries as there are paths, and entry `i` has the `i`-th path as
`fullPath`, its last segment as `fileName` and the lowercase of that as
`lowerName`; the slot `collection.indexOf(path)` written for the `i`-th path is
slot `i`. -/
theorem C28_distinct_paths (self : Engine) (paths : List QString) (hnd : paths.Nodup) :
    (setCollection self paths).m_entries.length = paths.length ∧
    ∀ i (hi : i < paths.length),
      (setCollection self paths).m_entries[i]? =
        some ⟨paths[i], lastSegment paths[i], toLower (lastSegment paths[i])⟩ ∧
      List.indexOf paths[i] paths = i := by
  rw [setCollection_nodup self paths hnd]
  refine ⟨by simp, fun i hi => ⟨?_, indexOf_getElem_of_nodup paths hnd i hi⟩⟩
  simp only [List.getElem?_map, List.getElem?_eq_getElem hi, Option.map_some', mkEntry,
    fileName_eq_lastSegment]

/-- C28 at the example collection: four entries, in the order of the paths. -/
theorem C28_distinct_paths_witness :
    (setCollection fresh demoCollection).m_entries.length = 4 ∧
    (setCollection fresh demoCollection).m_entries[1]? =
      some ⟨"/a/test.cpp".toList, "test.cpp".toList, "test.cpp".toList⟩ :=
  ⟨(C28_distinct_paths fresh demoCollection (by decide)).1,
    (((C28_distinct_paths fresh demoCollection (by decide)).2 1 (by decide)).1).trans
      (by decide)⟩

end FuzzyMatcher
